import Mathlib

/-!
# Search server: a shallow embedding of `search-server/search_server.cpp`

The C++ class `SearchServer` keeps an inverted index
(`word_to_document_freqs_`), a document store (`documents_`), the list of
ingested ids in insertion order (`documents_index_`) and a stop-word set
(`stop_words_`).  Every member function of `search_server.cpp` that the
properties below talk about is translated here into a Lean function on an
explicit state record.

Conventions of the embedding

* `std::string` is the list of its bytes (`Str`); a `char` is a byte and its
  value as a (signed) `char` is `charValue`.
* `int` is `Int`; where the C++ code converts or may overflow (`accumulate`
  into an `int`, `static_cast<int>` of a size, the `int` to `size_t`
  conversion of `vector::at`) the wrap-around is written out (`toInt32`,
  `toSizeT`).
* `double` is `Rat`: term frequencies are computed in exact arithmetic.
* `std::map` and `std::set` are lists kept in ascending key order; their
  operations walk the list in key order the way the tree search compares keys.
* A member function that can throw returns the exception (or the normal
  result) together with the state the object is left in.
* What `search_server.cpp` uses but does not define (the tokenizer
  `SplitIntoWords`, the records and data members declared in `search_server.h`,
  the predicate form of `FindTopDocuments`) is modelled from the specification
  and marked so where it is defined.
-/

namespace SearchServerModel

/-! ## Strings and machine integers -/

/-- One `char` of a `std::string`, as the byte it occupies. -/
abbrev Byte := Fin 256

/-- The model of `std::string`: its sequence of bytes. -/
abbrev Str := List Byte

/-- The bytes of an ASCII string literal (each character below 128 is its own byte). -/
def ascii (s : String) : Str := s.toList.map (fun c => Fin.ofNat c.toNat)

/-- The value of a byte read as a plain (signed, 8 bit) `char`. -/
def charValue (c : Byte) : Int := if c.val < 128 then (c.val : Int) else (c.val : Int) - 256

/-- Conversion of an integer value to a 32 bit `int` (two's complement wrap-around). -/
def toInt32 (x : Int) : Int := (x + 2147483648) % 4294967296 - 2147483648

/-- Conversion of an `int` to a 64 bit `size_t`. -/
def toSizeT (x : Int) : Nat := (x % 18446744073709551616).toNat

/-! ## The standard containers -/

namespace StdMap

variable {K : Type} {V : Type} [LinearOrder K]

/-- The lookup of `std::map::find`: walk the keys in ascending order. -/
def find : List (K × V) → K → Option V
  | [], _ => none
  | (k', v') :: m, k =>
    if k < k' then none else if k = k' then some v' else find m k

/-- Member `std::map::count`: 1 when the key is present, 0 otherwise. -/
def count (m : List (K × V)) (k : K) : Nat :=
  match find m k with
  | some _ => 1
  | none => 0

/-- Member `std::map::emplace`: put `(k, v)` at its place in key order unless the key is there. -/
def emplace : List (K × V) → K → V → List (K × V)
  | [], k, v => [(k, v)]
  | (k', v') :: m, k, v =>
    if k < k' then (k, v) :: (k', v') :: m
    else if k = k' then (k', v') :: m
    else (k', v') :: emplace m k v

/-- The statement `m[k] = f(m[k])`: `operator[]` creates the entry with the
value-initialised `dflt` when the key is absent, then the entry is updated in place. -/
def modify : List (K × V) → K → V → (V → V) → List (K × V)
  | [], k, dflt, f => [(k, f dflt)]
  | (k', v') :: m, k, dflt, f =>
    if k < k' then (k, f dflt) :: (k', v') :: m
    else if k = k' then (k', f v') :: m
    else (k', v') :: modify m k dflt f

/-- Member `std::map::size`. -/
def size (m : List (K × V)) : Nat := m.length

end StdMap

namespace StdSet

variable {K : Type} [LinearOrder K]

/-- Member `std::set::insert`: put `k` at its place in ascending order unless it is there. -/
def insert : List K → K → List K
  | [], k => [k]
  | k' :: s, k =>
    if k < k' then k :: k' :: s
    else if k = k' then k' :: s
    else k' :: insert s k

/-- Member `std::set::count`: 1 when `k` is an element, 0 otherwise. -/
def count (s : List K) (k : K) : Nat := if k ∈ s then 1 else 0

end StdSet

/-! ## The data model -/

/-- The enumeration `DocumentStatus` of `document.h`. -/
inductive DocumentStatus where
  | ACTUAL
  | IRRELEVANT
  | BANNED
  | REMOVED
  deriving DecidableEq, Repr

/-- The exceptions thrown by the member functions: `std::invalid_argument` with
its message, and the `std::out_of_range` of `vector::at` and `map::at`. -/
inductive Exception where
  | invalid_argument (what : String)
  | out_of_range
  deriving DecidableEq, Repr

deriving instance DecidableEq for Except

/-- The record `DocumentData` stored per document id; it is declared in
`search_server.h` and built in `AddDocument` as
`DocumentData{ComputeAverageRating(ratings), status}`. -/
structure DocumentData where
  rating : Int
  status : DocumentStatus
  deriving DecidableEq, Repr

/-- The record `QueryWord` returned by `ParseQueryWord` as
`{text, is_minus, IsStopWord(text)}`, with the member names `ParseQuery` uses. -/
structure QueryWord where
  data : Str
  is_minus : Bool
  is_stop : Bool
  deriving DecidableEq, Repr

/-- Modelled from the spec: the record `Query` is declared in `search_server.h`;
the specification has its two members be sets of terms kept in sorted order. -/
structure Query where
  plus_words : List Str
  minus_words : List Str
  deriving DecidableEq, Repr

/-- Modelled from the spec: the data members of `SearchServer`, declared in
`search_server.h`, with the names `search_server.cpp` uses: the stop-word set, the
inverted index (term to document id to frequency), the document store and the
list of ids in insertion order. -/
structure SearchServer where
  stop_words_ : List Str
  word_to_document_freqs_ : List (Str × List (Int × Rat))
  documents_ : List (Int × DocumentData)
  documents_index_ : List Int
  deriving DecidableEq

/-- Modelled from the spec: the constructor is declared in `search_server.h`,
which is not among the sources; the specification has a server start with its
configured stop-word set and no document. -/
def SearchServer.empty (stop_words : List Str) : SearchServer :=
  { stop_words_ := stop_words, word_to_document_freqs_ := [], documents_ := [],
    documents_index_ := [] }

/-! ## The member functions -/

/-- Modelled from the spec: the loop of the tokenizer `SplitIntoWords`, which is
declared outside `search_server.cpp`; `word` is the token being collected, and a
token ends at a whitespace character or at the end of the text. -/
def SplitIntoWords.loop (isSpace : Byte → Bool) : List Byte → Str → List Str
  | [], word => if word = [] then [] else [word]
  | c :: rest, word =>
    if isSpace c then
      (if word = [] then SplitIntoWords.loop isSpace rest []
       else word :: SplitIntoWords.loop isSpace rest [])
    else SplitIntoWords.loop isSpace rest (word ++ [c])

/-- Modelled from the spec: `SplitIntoWords` is declared outside
`search_server.cpp`; the specification has it split the raw text into
whitespace-delimited tokens (the maximal runs of non-whitespace characters, in
order).  Which characters count as whitespace is the parameter `isSpace`. -/
def SplitIntoWords (isSpace : Byte → Bool) (text : Str) : List Str :=
  SplitIntoWords.loop isSpace text []

/-- Member function `SearchServer::IsStopWord`. -/
def IsStopWord (s : SearchServer) (word : Str) : Bool :=
  decide (StdSet.count s.stop_words_ word > 0)

/-- Member function `SearchServer::IsValidWord`: no character `c` with `c >= '\0' && c < ' '`. -/
def IsValidWord (word : Str) : Bool :=
  !word.any (fun c => decide (charValue c ≥ 0) && decide (charValue c < 32))

/-- Member function `SearchServer::SplitIntoWordsNoStop`. -/
def SplitIntoWordsNoStop (isSpace : Byte → Bool) (s : SearchServer) (text : Str) : List Str :=
  (SplitIntoWords isSpace text).filter (fun word => !IsStopWord s word)

/-- Algorithm `std::accumulate` over `int`s into an `int`. -/
def accumulate (xs : List Int) (init : Int) : Int :=
  xs.foldl (fun acc x => toInt32 (acc + x)) init

/-- Member function `SearchServer::ComputeAverageRating`; the `/` of two `int`s truncates. -/
def ComputeAverageRating (ratings : List Int) : Int :=
  if ratings.isEmpty then 0
  else
    let rating_sum := accumulate ratings 0
    Int.tdiv rating_sum (toInt32 (ratings.length : Int))

/-- The statement `word_to_document_freqs_[word][document_id] += inv_word_count`. -/
def addFrequency (index : List (Str × List (Int × Rat))) (word : Str) (document_id : Int)
    (inv_word_count : Rat) : List (Str × List (Int × Rat)) :=
  StdMap.modify index word []
    (fun freqs => StdMap.modify freqs document_id 0 (fun x => x + inv_word_count))

/-- The `for (auto& word : words)` loop of `AddDocument`. -/
def AddDocument.loop (document_id : Int) (inv_word_count : Rat) :
    List Str → List (Str × List (Int × Rat)) → List (Str × List (Int × Rat))
  | [], index => index
  | word :: rest, index =>
    AddDocument.loop document_id inv_word_count rest
      (addFrequency index word document_id inv_word_count)

/-- Member function `SearchServer::AddDocument`: the value thrown (or normal
completion) and the state of the server afterwards.  When the text has no word
to index the quotient `1.0 / words.size()` is never added to anything. -/
def AddDocument (isSpace : Byte → Bool) (s : SearchServer) (document_id : Int)
    (document : Str) (status : DocumentStatus) (ratings : List Int) :
    Except Exception Unit × SearchServer :=
  if document_id < 0 then
    (.error (.invalid_argument "айди документа отрицательный"), s)
  else if StdMap.count s.documents_ document_id ≠ 0 then
    (.error (.invalid_argument "повторяющийся документ"), s)
  else if !IsValidWord document then
    (.error (.invalid_argument "недопустимые символы"), s)
  else
    let words := SplitIntoWordsNoStop isSpace s document
    let inv_word_count : Rat := 1 / (words.length : Rat)
    (.ok (),
      { s with
        word_to_document_freqs_ :=
          AddDocument.loop document_id inv_word_count words s.word_to_document_freqs_
        documents_ :=
          StdMap.emplace s.documents_ document_id
            { rating := ComputeAverageRating ratings, status := status }
        documents_index_ := s.documents_index_ ++ [document_id] })

/-- Member function `SearchServer::GetDocumentCount`. -/
def GetDocumentCount (s : SearchServer) : Int :=
  toInt32 (StdMap.size s.documents_ : Int)

/-- Member function `SearchServer::GetDocumentId`: `documents_index_.at(index)`. -/
def GetDocumentId (s : SearchServer) (index : Int) : Except Exception Int :=
  match s.documents_index_[toSizeT index]? with
  | some document_id => .ok document_id
  | none => .error .out_of_range

/-- Member function `SearchServer::ParseQueryWord`. -/
def ParseQueryWord (s : SearchServer) (text : Str) : Except Exception QueryWord :=
  if text = [] then .error (.invalid_argument "нет текста после минуса")
  else
    let is_minus : Bool := decide (text.head? = some 45)
    let text : Str := if is_minus then text.drop 1 else text
    if text = [] ∨ text.head? = some 45 ∨ IsValidWord text = false then
      .error (.invalid_argument "один или более минусов")
    else .ok { data := text, is_minus := is_minus, is_stop := IsStopWord s text }

/-- The `for` loop of `ParseQuery` over the tokens, `result` being built up. -/
def ParseQuery.loop (s : SearchServer) : List Str → Query → Except Exception Query
  | [], result => .ok result
  | word :: rest, result =>
    match ParseQueryWord s word with
    | .error e => .error e
    | .ok query_word =>
      if !query_word.is_stop then
        if query_word.is_minus then
          ParseQuery.loop s rest
            { result with minus_words := StdSet.insert result.minus_words query_word.data }
        else
          ParseQuery.loop s rest
            { result with plus_words := StdSet.insert result.plus_words query_word.data }
      else ParseQuery.loop s rest result

/-- Member function `SearchServer::ParseQuery`. -/
def ParseQuery (isSpace : Byte → Bool) (s : SearchServer) (text : Str) :
    Except Exception Query :=
  ParseQuery.loop s (SplitIntoWords isSpace text) { plus_words := [], minus_words := [] }

/-- The states a server can be in: constructed with some stop words, then any
number of `AddDocument` calls, each of which may succeed or throw. -/
inductive Reachable (isSpace : Byte → Bool) : SearchServer → Prop where
  | init (stop_words : List Str) : Reachable isSpace (SearchServer.empty stop_words)
  | add (s : SearchServer) (h : Reachable isSpace s) (document_id : Int) (document : Str)
      (status : DocumentStatus) (ratings : List Int) :
      Reachable isSpace (AddDocument isSpace s document_id document status ratings).2

/-- What holds of every reachable state: the document store is in ascending key
order, the insertion-order list is as long as the store, and every document id
with a posting in the inverted index is a key of the store. -/
structure Invariant (s : SearchServer) : Prop where
  documents_sorted : (s.documents_.map Prod.fst).Sorted (· < ·)
  index_length : s.documents_index_.length = s.documents_.length
  postings_stored : ∀ e ∈ s.word_to_document_freqs_, ∀ p ∈ e.2,
    StdMap.find s.documents_ p.1 ≠ none

/-- The states a server `s` can get into by further `AddDocument` calls, each of
which may succeed or throw. -/
inductive ReachableFrom (isSpace : Byte → Bool) (s : SearchServer) : SearchServer → Prop where
  | refl : ReachableFrom isSpace s s
  | add (t : SearchServer) (h : ReachableFrom isSpace s t) (document_id : Int)
      (document : Str) (status : DocumentStatus) (ratings : List Int) :
      ReachableFrom isSpace s (AddDocument isSpace t document_id document status ratings).2

/-! ## What the properties observe in the inverted index -/

/-- The frequency the inverted index stores for a term and a document id:
`word_to_document_freqs_.at(word).at(document_id)`, or nothing when there is no
such entry. -/
def storedFrequency (index : List (Str × List (Int × Rat))) (word : Str) (document_id : Int) :
    Option Rat :=
  match StdMap.find index word with
  | some freqs => StdMap.find freqs document_id
  | none => none

/-- The sum, over all terms of the inverted index, of the frequency stored for
`document_id` (a term without an entry for the document adds nothing). -/
def frequencySum (index : List (Str × List (Int × Rat))) (document_id : Int) : Rat :=
  (index.map (fun e => (StdMap.find e.2 document_id).getD 0)).sum

/-! ## Concrete inputs used to exercise the theorems -/

/-- The delimiter test of a tokenizer that splits on the space character only. -/
def spaceOnly : Byte → Bool := fun c => c == 32

/-- A server with the stop words "and" and "in" holding one document, id 0. -/
def exampleServer : SearchServer :=
  (AddDocument spaceOnly (SearchServer.empty [ascii "and", ascii "in"]) 0
    (ascii "white cat and fluffy tail") DocumentStatus.ACTUAL [7, 2, 7]).2

/-! ## The matcher -/

/-- Member `std::map::at`: the value stored under `k`, or `std::out_of_range`. -/
def StdMap.at_ {K : Type} {V : Type} [LinearOrder K] (m : List (K × V)) (k : K) :
    Except Exception V :=
  match StdMap.find m k with
  | some v => .ok v
  | none => .error .out_of_range

/-- The first loop of `MatchDocument`, over `query.plus_words`: a word that is in
the index with an entry for `document_id` is appended to `matched_words`. -/
def MatchDocument.plusLoop (index : List (Str × List (Int × Rat))) (document_id : Int) :
    List Str → List Str → Except Exception (List Str)
  | [], matched_words => .ok matched_words
  | word :: rest, matched_words =>
    if StdMap.count index word = 0 then
      MatchDocument.plusLoop index document_id rest matched_words
    else
      match StdMap.at_ index word with
      | .error e => .error e
      | .ok freqs =>
        if StdMap.count freqs document_id ≠ 0 then
          MatchDocument.plusLoop index document_id rest (matched_words ++ [word])
        else MatchDocument.plusLoop index document_id rest matched_words

/-- The second loop of `MatchDocument`, over `query.minus_words`: at the first word
that is in the index with an entry for `document_id`, `matched_words` is cleared
and the loop is left. -/
def MatchDocument.minusLoop (index : List (Str × List (Int × Rat))) (document_id : Int) :
    List Str → List Str → Except Exception (List Str)
  | [], matched_words => .ok matched_words
  | word :: rest, matched_words =>
    if StdMap.count index word = 0 then
      MatchDocument.minusLoop index document_id rest matched_words
    else
      match StdMap.at_ index word with
      | .error e => .error e
      | .ok freqs =>
        if StdMap.count freqs document_id ≠ 0 then .ok []
        else MatchDocument.minusLoop index document_id rest matched_words

/-- Member function `SearchServer::MatchDocument`: the query is parsed, the two
loops run, and `documents_.at(document_id).status` is read last. -/
def MatchDocument (isSpace : Byte → Bool) (s : SearchServer) (raw_query : Str)
    (document_id : Int) : Except Exception (List Str × DocumentStatus) :=
  match ParseQuery isSpace s raw_query with
  | .error e => .error e
  | .ok query =>
    match MatchDocument.plusLoop s.word_to_document_freqs_ document_id query.plus_words [] with
    | .error e => .error e
    | .ok plus_matched =>
      match MatchDocument.minusLoop s.word_to_document_freqs_ document_id query.minus_words
          plus_matched with
      | .error e => .error e
      | .ok matched_words =>
        match StdMap.at_ s.documents_ document_id with
        | .error e => .error e
        | .ok data => .ok (matched_words, data.status)

/-- Whether the inverted index has an entry for the term `word` and the document
`document_id`: the document contains the term. -/
def isIndexed (index : List (Str × List (Int × Rat))) (document_id : Int) (word : Str) : Bool :=
  (storedFrequency index word document_id).isSome

/-! ## Sequences of calls -/

/-- The arguments of one call of `AddDocument`. -/
structure AddDocumentCall where
  document_id : Int
  document : Str
  status : DocumentStatus
  ratings : List Int

/-- The state of the server after a sequence of `AddDocument` calls, each run on
the state the one before left. -/
def runCalls (isSpace : Byte → Bool) : SearchServer → List AddDocumentCall → SearchServer
  | s, [] => s
  | s, c :: rest =>
    runCalls isSpace (AddDocument isSpace s c.document_id c.document c.status c.ratings).2 rest

/-- The calls of a sequence that complete normally, in the order they are made. -/
def successfulCalls (isSpace : Byte → Bool) :
    SearchServer → List AddDocumentCall → List AddDocumentCall
  | _, [] => []
  | s, c :: rest =>
    if (AddDocument isSpace s c.document_id c.document c.status c.ratings).1 = .ok () then
      c :: successfulCalls isSpace
        (AddDocument isSpace s c.document_id c.document c.status c.ratings).2 rest
    else
      successfulCalls isSpace
        (AddDocument isSpace s c.document_id c.document c.status c.ratings).2 rest

/-- The two documents of the example of the specification, ingested into a server
without stop words: document 0 "white cat fluffy tail" with the ratings 7, 2, 7
and document 1 "fluffy well groomed cat" with the ratings 8, -3, both `ACTUAL`. -/
def specExampleCalls : List AddDocumentCall :=
  [{ document_id := 0, document := ascii "white cat fluffy tail",
     status := DocumentStatus.ACTUAL, ratings := [7, 2, 7] },
   { document_id := 1, document := ascii "fluffy well groomed cat",
     status := DocumentStatus.ACTUAL, ratings := [8, -3] }]

/-- The server of the example of the specification. -/
def specExampleServer : SearchServer :=
  runCalls spaceOnly (SearchServer.empty []) specExampleCalls

/-- Four calls on a fresh server, with the ids 0, -1, 0 and 1: the second throws
for the negative id and the third for the id already used. -/
def mixedExampleCalls : List AddDocumentCall :=
  [{ document_id := 0, document := ascii "cat", status := DocumentStatus.ACTUAL,
     ratings := [] },
   { document_id := -1, document := ascii "dog", status := DocumentStatus.ACTUAL,
     ratings := [] },
   { document_id := 0, document := ascii "dog", status := DocumentStatus.BANNED,
     ratings := [] },
   { document_id := 1, document := ascii "tail", status := DocumentStatus.ACTUAL,
     ratings := [] }]

/-! ## The ranker -/

/-- The record `Document` of `document.h`, one entry of a search result. -/
structure Document where
  id : Int
  relevance : Rat
  rating : Int
  deriving DecidableEq

/-- The overload `FindTopDocuments(raw_query, status)` of `search_server.cpp`: it
calls the predicate form, here the parameter `findTopDocuments` (a member template
declared in `search_server.h`), with the lambda that compares the status. -/
def FindTopDocuments_status
    (findTopDocuments : SearchServer → Str → (Int → DocumentStatus → Int → Bool) →
      Except Exception (List Document))
    (s : SearchServer) (raw_query : Str) (status : DocumentStatus) :
    Except Exception (List Document) :=
  findTopDocuments s raw_query
    (fun _document_id new_status _rating => decide (new_status = status))

/-- The overload `FindTopDocuments(raw_query)` of `search_server.cpp`. -/
def FindTopDocuments_query
    (findTopDocuments : SearchServer → Str → (Int → DocumentStatus → Int → Bool) →
      Except Exception (List Document))
    (s : SearchServer) (raw_query : Str) : Except Exception (List Document) :=
  FindTopDocuments_status findTopDocuments s raw_query DocumentStatus.ACTUAL

/-- Modelled from the spec: the implementation parameters of the ranker, which the
specification leaves open: the tolerance within which two relevances count as
equal, and the cap on the number of results; `log` stands for the natural
logarithm, relevance being computed in exact arithmetic. -/
structure RankingParameters where
  log : Rat → Rat
  epsilon : Rat
  max_result_document_count : Nat

/-- Modelled from the spec: step 2 of the ranker for one plus-term: for every
document containing the term, `score[id] += termFrequency(term, id) * idf`. -/
def accumulateTerm (idf : Rat) : List (Int × Rat) → List (Int × Rat) → List (Int × Rat)
  | [], scores => scores
  | (document_id, term_freq) :: rest, scores =>
    accumulateTerm idf rest
      (StdMap.modify scores document_id 0 (fun score => score + term_freq * idf))

/-- Modelled from the spec: step 2 of the ranker: for each plus-term present in
the inverted index, `idf = ln(totalDocumentCount / numberOfDocumentsContainingTerm)`
and the scores of the documents containing the term are accumulated; a plus-term
absent from the index contributes nothing. -/
def accumulateScores (p : RankingParameters) (s : SearchServer) :
    List Str → List (Int × Rat) → List (Int × Rat)
  | [], scores => scores
  | word :: rest, scores =>
    match StdMap.find s.word_to_document_freqs_ word with
    | none => accumulateScores p s rest scores
    | some freqs =>
      accumulateScores p s rest
        (accumulateTerm (p.log ((GetDocumentCount s : Rat) / (StdMap.size freqs : Rat)))
          freqs scores)

/-- Modelled from the spec: step 3 of the ranker: discard any accumulated document
id that contains any minus-term. -/
def discardMinusWords (s : SearchServer) (minus_words : List Str)
    (scores : List (Int × Rat)) : List (Int × Rat) :=
  scores.filter (fun entry => !minus_words.any (isIndexed s.word_to_document_freqs_ entry.1))

/-- Modelled from the spec: steps 4 and 5 of the ranker for one accumulated id:
the predicate is applied to the id with its stored status and rating, and an
eligible id is emitted as `{id, score, rating}`.  An id without stored data has
no status or rating to test and is dropped; no reachable state has one. -/
def eligibleDocument (s : SearchServer) (predicate : Int → DocumentStatus → Int → Bool)
    (entry : Int × Rat) : Option Document :=
  match StdMap.find s.documents_ entry.1 with
  | none => none
  | some data =>
    if predicate entry.1 data.status data.rating then
      some { id := entry.1, relevance := entry.2, rating := data.rating }
    else none

/-- Modelled from the spec: the order of the results: descending relevance, and
descending rating where two relevances are equal within the tolerance. -/
def ranksBefore (p : RankingParameters) (a b : Document) : Bool :=
  if |a.relevance - b.relevance| < p.epsilon then decide (a.rating > b.rating)
  else decide (a.relevance > b.relevance)

/-- Modelled from the spec: the predicate form `FindTopDocuments(rawQuery,
predicate)`, declared in `search_server.h`, which is not among the sources: parse
the query, accumulate the TF-IDF scores of the plus-terms, discard the documents
containing a minus-term, apply the predicate, sort, and keep the top results. -/
def FindTopDocuments (p : RankingParameters) (isSpace : Byte → Bool) (s : SearchServer)
    (raw_query : Str) (predicate : Int → DocumentStatus → Int → Bool) :
    Except Exception (List Document) :=
  match ParseQuery isSpace s raw_query with
  | .error e => .error e
  | .ok query =>
    .ok (((((discardMinusWords s query.minus_words
      (accumulateScores p s query.plus_words [])).filterMap
        (eligibleDocument s predicate)).insertionSort
          (fun a b => ranksBefore p a b = true)).take p.max_result_document_count))

/-- Ranking parameters for the examples: the conventional tolerance 1e-6 and cap
5, and for the logarithm the stand-in `x - 1`, exact at 1. -/
def exampleRanking : RankingParameters :=
  { log := fun x => x - 1, epsilon := 1 / 1000000, max_result_document_count := 5 }

/-! ## Facts about the containers -/

namespace StdMap

variable {K : Type} {V : Type} [LinearOrder K]

theorem find_mem (m : List (K × V)) (k : K) (v : V) (h : find m k = some v) : (k, v) ∈ m := by
  induction m with
  | nil => simp [find] at h
  | cons e m ih =>
    obtain ⟨k', v'⟩ := e
    simp only [find] at h
    by_cases h1 : k < k'
    · simp [h1] at h
    · by_cases h2 : k = k'
      · simp [h1, h2] at h
        simp [h2, h]
      · simp only [h1, h2, if_false] at h
        exact List.mem_cons_of_mem _ (ih h)

theorem find_eq_none_of_lt (m : List (K × V)) (k k' : K) (v' : V) (h : k < k') :
    find ((k', v') :: m) k = none := by
  simp [find, h]

theorem find_emplace (m : List (K × V)) (k : K) (v : V) (k2 : K) :
    find (emplace m k v) k2 = if k2 = k then some ((find m k).getD v) else find m k2 := by
  induction m with
  | nil =>
    by_cases h : k2 = k
    · simp [emplace, find, h]
    · simp [emplace, find, h]
  | cons e m ih =>
    obtain ⟨k', v'⟩ := e
    by_cases h1 : k < k'
    · by_cases h : k2 = k
      · subst h
        simp [emplace, find, h1]
      · by_cases h3 : k2 < k
        · simp [emplace, find, h1, h, h3, lt_trans h3 h1]
        · simp [emplace, find, h1, h, h3]
    · by_cases h2 : k = k'
      · subst h2
        by_cases h : k2 = k
        · subst h
          simp [emplace, find]
        · simp [emplace, find, h]
      · by_cases h : k2 = k
        · subst h
          simp [emplace, find, h1, h2, ih]
        · simp [emplace, find, h1, h2, ih, h]

theorem length_emplace (m : List (K × V)) (k : K) (v : V) (h : find m k = none) :
    (emplace m k v).length = m.length + 1 := by
  induction m with
  | nil => simp [emplace]
  | cons e m ih =>
    obtain ⟨k', v'⟩ := e
    simp only [find] at h
    by_cases h1 : k < k'
    · simp [emplace, h1]
    · by_cases h2 : k = k'
      · simp [h1, h2] at h
      · simp only [h1, h2, if_false] at h
        simp [emplace, h1, h2, ih h]

theorem mem_emplace (m : List (K × V)) (k : K) (v : V) (e : K × V) (h : e ∈ emplace m k v) :
    e ∈ m ∨ e = (k, v) := by
  induction m with
  | nil => simpa [emplace] using h
  | cons e' m ih =>
    obtain ⟨k', v'⟩ := e'
    by_cases h1 : k < k'
    · simp only [emplace, h1, if_true, List.mem_cons] at h
      rcases h with h | h | h
      · exact Or.inr h
      · exact Or.inl (by simp [h])
      · exact Or.inl (by simp [h])
    · by_cases h2 : k = k'
      · simp only [emplace, h1, h2, if_false, if_true] at h
        simp only [lt_self_iff_false, if_false, if_true] at h
        exact Or.inl h
      · simp only [emplace, h1, h2, if_false, List.mem_cons] at h
        rcases h with h | h
        · exact Or.inl (by simp [h])
        · rcases ih h with h | h
          · exact Or.inl (List.mem_cons_of_mem _ h)
          · exact Or.inr h

theorem keys_emplace_sorted (m : List (K × V)) (k : K) (v : V)
    (h : (m.map Prod.fst).Sorted (· < ·)) : ((emplace m k v).map Prod.fst).Sorted (· < ·) := by
  induction m with
  | nil => simp [emplace]
  | cons e m ih =>
    obtain ⟨k', v'⟩ := e
    simp only [List.map_cons, List.sorted_cons] at h
    by_cases h1 : k < k'
    · simp only [emplace, h1, if_true, List.map_cons, List.sorted_cons, List.mem_cons]
      refine ⟨?_, h⟩
      rintro b (rfl | hb)
      · exact h1
      · exact lt_trans h1 (h.1 b hb)
    · by_cases h2 : k = k'
      · subst h2
        simpa [emplace] using h
      · simp only [emplace, h1, h2, if_false, List.map_cons, List.sorted_cons]
        refine ⟨?_, ih h.2⟩
        intro b hb
        obtain ⟨e, he, rfl⟩ := List.mem_map.mp hb
        rcases mem_emplace m k v e he with he | he
        · exact h.1 _ (List.mem_map_of_mem _ he)
        · subst he
          exact lt_of_le_of_ne (not_lt.mp h1) (Ne.symm h2)

theorem mem_keys_iff_find (m : List (K × V)) (k : K) (h : (m.map Prod.fst).Sorted (· < ·)) :
    k ∈ m.map Prod.fst ↔ find m k ≠ none := by
  induction m with
  | nil => simp [find]
  | cons e m ih =>
    obtain ⟨k', v'⟩ := e
    simp only [List.map_cons, List.sorted_cons] at h
    by_cases h1 : k < k'
    · simp only [find, h1, if_true, List.map_cons, List.mem_cons, ne_eq, not_true, iff_false]
      rintro (rfl | hk)
      · exact lt_irrefl _ h1
      · exact lt_asymm h1 (h.1 k hk)
    · by_cases h2 : k = k'
      · simp [find, h2]
      · simp only [find, h1, h2, if_false, List.map_cons, List.mem_cons, false_or]
        exact ih h.2

theorem count_eq_zero_iff (m : List (K × V)) (k : K) : count m k = 0 ↔ find m k = none := by
  unfold count
  cases find m k <;> simp

theorem find_modify (m : List (K × V)) (k : K) (dflt : V) (f : V → V) (k2 : K) :
    find (modify m k dflt f) k2 =
      if k2 = k then some (f ((find m k).getD dflt)) else find m k2 := by
  induction m with
  | nil =>
    by_cases h : k2 = k
    · simp [modify, find, h]
    · simp [modify, find, h]
  | cons e m ih =>
    obtain ⟨k', v'⟩ := e
    by_cases h1 : k < k'
    · by_cases h : k2 = k
      · subst h
        simp [modify, find, h1]
      · by_cases h3 : k2 < k
        · simp [modify, find, h1, h, h3, lt_trans h3 h1]
        · simp [modify, find, h1, h, h3]
    · by_cases h2 : k = k'
      · subst h2
        by_cases h : k2 = k
        · subst h
          simp [modify, find]
        · simp [modify, find, h]
      · by_cases h : k2 = k
        · subst h
          simp [modify, find, h1, h2, ih]
        · simp [modify, find, h1, h2, ih, h]

theorem mem_modify (m : List (K × V)) (k : K) (dflt : V) (f : V → V) (e : K × V)
    (h : e ∈ modify m k dflt f) :
    e ∈ m ∨ (e.1 = k ∧ e.2 = f ((find m k).getD dflt)) := by
  induction m with
  | nil =>
    simp only [modify, List.mem_singleton] at h
    simp [h, find]
  | cons e' m ih =>
    obtain ⟨k', v'⟩ := e'
    by_cases h1 : k < k'
    · simp only [modify, h1, if_true, List.mem_cons] at h
      rcases h with h | h | h
      · exact Or.inr (by simp [h, find, h1])
      · exact Or.inl (by simp [h])
      · exact Or.inl (by simp [h])
    · by_cases h2 : k = k'
      · subst h2
        simp only [modify, lt_self_iff_false, if_false, if_true, List.mem_cons] at h
        rcases h with h | h
        · exact Or.inr (by simp [h, find])
        · exact Or.inl (List.mem_cons_of_mem _ h)
      · simp only [modify, h1, h2, if_false, List.mem_cons] at h
        rcases h with h | h
        · exact Or.inl (by simp [h])
        · rcases ih h with h | h
          · exact Or.inl (List.mem_cons_of_mem _ h)
          · exact Or.inr (by simpa [find, h1, h2] using h)

end StdMap


/-! ## Facts about the member functions -/

theorem toInt32_of_fits (x : Int) (h0 : -2147483648 ≤ x) (h1 : x < 2147483648) :
    toInt32 x = x := by
  unfold toInt32
  omega

theorem toSizeT_natCast (n : Nat) (h : n < 18446744073709551616) : toSizeT (n : Int) = n := by
  unfold toSizeT
  omega

theorem charValue_control (c : Byte) : (charValue c ≥ 0 ∧ charValue c < 32) ↔ c.val < 32 := by
  unfold charValue
  have := c.isLt
  split <;> omega

theorem IsValidWord_eq_false_iff (word : Str) :
    IsValidWord word = false ↔ ∃ c ∈ word, c.val < 32 := by
  unfold IsValidWord
  simp only [Bool.not_eq_false', List.any_eq_true, Bool.and_eq_true, decide_eq_true_eq]
  constructor
  · rintro ⟨c, hc, h⟩
    exact ⟨c, hc, (charValue_control c).mp h⟩
  · rintro ⟨c, hc, h⟩
    exact ⟨c, hc, (charValue_control c).mpr h⟩

theorem IsValidWord_eq_true_iff (word : Str) :
    IsValidWord word = true ↔ ∀ c ∈ word, 32 ≤ c.val := by
  rw [← Bool.not_eq_false, IsValidWord_eq_false_iff]
  push_neg
  rfl

/-- The outcome of `AddDocument` when all three checks pass. -/
theorem AddDocument_of_valid (isSpace : Byte → Bool) (s : SearchServer) (document_id : Int)
    (document : Str) (status : DocumentStatus) (ratings : List Int)
    (h1 : ¬ document_id < 0) (h2 : StdMap.count s.documents_ document_id = 0)
    (h3 : IsValidWord document = true) :
    AddDocument isSpace s document_id document status ratings =
      (.ok (),
        { s with
          word_to_document_freqs_ :=
            AddDocument.loop document_id
              (1 / ((SplitIntoWordsNoStop isSpace s document).length : Rat))
              (SplitIntoWordsNoStop isSpace s document) s.word_to_document_freqs_
          documents_ :=
            StdMap.emplace s.documents_ document_id
              { rating := ComputeAverageRating ratings, status := status }
          documents_index_ := s.documents_index_ ++ [document_id] }) := by
  simp [AddDocument, h1, h2, h3]

/-- A call of `AddDocument` that does not throw passed all three checks. -/
theorem AddDocument_ok_conditions (isSpace : Byte → Bool) (s : SearchServer)
    (document_id : Int) (document : Str) (status : DocumentStatus) (ratings : List Int)
    (h : (AddDocument isSpace s document_id document status ratings).1 = .ok ()) :
    ¬ document_id < 0 ∧ StdMap.count s.documents_ document_id = 0 ∧
      IsValidWord document = true := by
  unfold AddDocument at h
  by_cases h1 : document_id < 0
  · simp [h1] at h
  · by_cases h2 : StdMap.count s.documents_ document_id = 0
    · by_cases h3 : IsValidWord document = true
      · exact ⟨h1, h2, h3⟩
      · simp [h1, h2, h3] at h
    · simp [h1, h2] at h

/-- A call of `AddDocument` that throws leaves the object as it was. -/
theorem AddDocument_error_state (isSpace : Byte → Bool) (s : SearchServer)
    (document_id : Int) (document : Str) (status : DocumentStatus) (ratings : List Int)
    (e : Exception)
    (h : (AddDocument isSpace s document_id document status ratings).1 = .error e) :
    (AddDocument isSpace s document_id document status ratings).2 = s := by
  unfold AddDocument at h ⊢
  by_cases h1 : document_id < 0
  · simp [h1]
  · by_cases h2 : StdMap.count s.documents_ document_id = 0
    · by_cases h3 : IsValidWord document = true
      · simp [h1, h2, h3] at h
      · simp [h1, h2, h3]
    · simp [h1, h2]


/-- Every posting of the index after one `+=` was there before or is for `document_id`. -/
theorem addFrequency_postings (P : Int → Prop) (index : List (Str × List (Int × Rat)))
    (word : Str) (document_id : Int) (inv_word_count : Rat)
    (hindex : ∀ e ∈ index, ∀ p ∈ e.2, P p.1) (hd : P document_id) :
    ∀ e ∈ addFrequency index word document_id inv_word_count, ∀ p ∈ e.2, P p.1 := by
  intro e he p hp
  rcases StdMap.mem_modify _ _ _ _ _ he with he | ⟨_, he2⟩
  · exact hindex e he p hp
  · rw [he2] at hp
    rcases StdMap.mem_modify _ _ _ _ _ hp with hp | ⟨hp1, _⟩
    · cases hfind : StdMap.find index word with
      | none => simp [hfind] at hp
      | some freqs =>
        rw [hfind] at hp
        exact hindex _ (StdMap.find_mem _ _ _ hfind) p hp
    · rw [hp1]
      exact hd

/-- Every posting of the index after the ingestion loop was there before or is for
`document_id`. -/
theorem loop_postings (P : Int → Prop) (document_id : Int) (inv_word_count : Rat)
    (words : List Str) (index : List (Str × List (Int × Rat)))
    (hindex : ∀ e ∈ index, ∀ p ∈ e.2, P p.1) (hd : P document_id) :
    ∀ e ∈ AddDocument.loop document_id inv_word_count words index, ∀ p ∈ e.2, P p.1 := by
  induction words generalizing index with
  | nil => simpa [AddDocument.loop] using hindex
  | cons word rest ih =>
    simp only [AddDocument.loop]
    exact ih _ (addFrequency_postings P index word document_id inv_word_count hindex hd)

theorem invariant_empty (stop_words : List Str) : Invariant (SearchServer.empty stop_words) := by
  constructor <;> simp [SearchServer.empty]

theorem invariant_AddDocument (isSpace : Byte → Bool) (s : SearchServer) (h : Invariant s)
    (document_id : Int) (document : Str) (status : DocumentStatus) (ratings : List Int) :
    Invariant (AddDocument isSpace s document_id document status ratings).2 := by
  cases hres : (AddDocument isSpace s document_id document status ratings).1 with
  | error e =>
    rw [AddDocument_error_state isSpace s document_id document status ratings e hres]
    exact h
  | ok u =>
    obtain ⟨h1, h2, h3⟩ :=
      AddDocument_ok_conditions isSpace s document_id document status ratings hres
    rw [AddDocument_of_valid isSpace s document_id document status ratings h1 h2 h3]
    have hnone := (StdMap.count_eq_zero_iff _ _).mp h2
    constructor
    · exact StdMap.keys_emplace_sorted _ _ _ h.documents_sorted
    · simp [StdMap.length_emplace _ _ _ hnone, h.index_length]
    · apply loop_postings (fun d => StdMap.find (StdMap.emplace s.documents_ document_id
        { rating := ComputeAverageRating ratings, status := status }) d ≠ none)
      · intro e he p hp
        have := h.postings_stored e he p hp
        simp only [StdMap.find_emplace]
        split
        · simp
        · exact this
      · simp [StdMap.find_emplace]

theorem reachable_invariant (isSpace : Byte → Bool) (s : SearchServer)
    (h : Reachable isSpace s) : Invariant s := by
  induction h with
  | init stop_words => exact invariant_empty stop_words
  | add s _ document_id document status ratings ih =>
    exact invariant_AddDocument isSpace s ih document_id document status ratings

/-! ## The properties of ingestion -/

/-- C1: on every reachable server `AddDocument` throws exactly when the id is
negative, or is already a key of the document store, or the text has a byte in
`0x00..0x1F`; the checks are made in this order, each failure has its own error
value (the three messages differ), and every other call completes normally. -/
theorem C1_AddDocument_validation (isSpace : Byte → Bool) (s : SearchServer)
    (hs : Reachable isSpace s) (document_id : Int) (document : Str)
    (status : DocumentStatus) (ratings : List Int) :
    (AddDocument isSpace s document_id document status ratings).1 =
        (if document_id < 0 then
          .error (.invalid_argument "айди документа отрицательный")
        else if document_id ∈ s.documents_.map Prod.fst then
          .error (.invalid_argument "повторяющийся документ")
        else if ∃ c ∈ document, c.val < 32 then
          .error (.invalid_argument "недопустимые символы")
        else .ok ()) ∧
      Exception.invalid_argument "айди документа отрицательный" ≠
        Exception.invalid_argument "повторяющийся документ" ∧
      Exception.invalid_argument "айди документа отрицательный" ≠
        Exception.invalid_argument "недопустимые символы" ∧
      Exception.invalid_argument "повторяющийся документ" ≠
        Exception.invalid_argument "недопустимые символы" := by
  refine ⟨?_, by decide, by decide, by decide⟩
  have hkey := StdMap.mem_keys_iff_find s.documents_ document_id
    (reachable_invariant isSpace s hs).documents_sorted
  by_cases h1 : document_id < 0
  · simp [AddDocument, h1]
  · by_cases h2 : StdMap.count s.documents_ document_id = 0
    · have hnot : ¬ document_id ∈ s.documents_.map Prod.fst := by
        rw [hkey, (StdMap.count_eq_zero_iff _ _).mp h2]
        simp
      by_cases h3 : IsValidWord document = true
      · have hno : ¬ ∃ c ∈ document, c.val < 32 := by
          rw [← IsValidWord_eq_false_iff, h3]
          simp
        rw [AddDocument_of_valid isSpace s document_id document status ratings h1 h2 h3]
        rw [if_neg h1, if_neg hnot, if_neg hno]
      · have hyes : ∃ c ∈ document, c.val < 32 := by
          rw [← IsValidWord_eq_false_iff]
          simpa using h3
        rw [if_neg h1, if_neg hnot, if_pos hyes]
        simp [AddDocument, h1, h2, h3]
    · have hin : document_id ∈ s.documents_.map Prod.fst := by
        rw [hkey]
        intro hnone
        exact h2 ((StdMap.count_eq_zero_iff _ _).mpr hnone)
      rw [if_neg h1, if_pos hin]
      simp [AddDocument, h1, h2]

theorem exampleServer_reachable : Reachable spaceOnly exampleServer :=
  Reachable.add _ (Reachable.init _) _ _ _ _

/-- C1 applied to the example server: id 0 is taken, so a second document with
id 0 is refused as a duplicate. -/
theorem C1_AddDocument_validation_witness :
    Reachable spaceOnly exampleServer ∧
      (AddDocument spaceOnly exampleServer 0 (ascii "cat") DocumentStatus.ACTUAL []).1 =
        .error (.invalid_argument "повторяющийся документ") :=
  ⟨exampleServer_reachable, by
    have h := (C1_AddDocument_validation spaceOnly exampleServer exampleServer_reachable 0
      (ascii "cat") DocumentStatus.ACTUAL []).1
    rw [h]
    decide⟩

/-- C2: a call of `AddDocument` that throws, for whichever of the three reasons,
leaves the whole server state (inverted index, document store, insertion-order
list) identical to the state before the call, and so `GetDocumentCount` too. -/
theorem C2_AddDocument_failure_atomic (isSpace : Byte → Bool) (s : SearchServer)
    (document_id : Int) (document : Str) (status : DocumentStatus) (ratings : List Int)
    (e : Exception)
    (h : (AddDocument isSpace s document_id document status ratings).1 = .error e) :
    (AddDocument isSpace s document_id document status ratings).2 = s ∧
      GetDocumentCount (AddDocument isSpace s document_id document status ratings).2 =
        GetDocumentCount s := by
  have hstate := AddDocument_error_state isSpace s document_id document status ratings e h
  exact ⟨hstate, by rw [hstate]⟩

/-- C2 applied to the example server and the id `-1`. -/
theorem C2_AddDocument_failure_atomic_witness :
    (AddDocument spaceOnly exampleServer (-1) (ascii "cat") DocumentStatus.ACTUAL [1]).1 =
        .error (.invalid_argument "айди документа отрицательный") ∧
      (AddDocument spaceOnly exampleServer (-1) (ascii "cat") DocumentStatus.ACTUAL [1]).2 =
        exampleServer ∧
      GetDocumentCount
          (AddDocument spaceOnly exampleServer (-1) (ascii "cat") DocumentStatus.ACTUAL [1]).2 =
        GetDocumentCount exampleServer :=
  ⟨by decide,
    C2_AddDocument_failure_atomic spaceOnly exampleServer (-1) (ascii "cat")
      DocumentStatus.ACTUAL [1] (.invalid_argument "айди документа отрицательный") (by decide)⟩

/-- C3: on a reachable server whose document count is below `INT_MAX`, a call of
`AddDocument` that completes normally with id `d` raises `GetDocumentCount` by
exactly one, and `GetDocumentId(GetDocumentCount() - 1)` then returns `d`. -/
theorem C3_AddDocument_count_and_last (isSpace : Byte → Bool) (s : SearchServer)
    (hs : Reachable isSpace s) (document_id : Int) (document : Str)
    (status : DocumentStatus) (ratings : List Int)
    (hsize : (StdMap.size s.documents_ : Int) < 2147483647)
    (hok : (AddDocument isSpace s document_id document status ratings).1 = .ok ()) :
    GetDocumentCount (AddDocument isSpace s document_id document status ratings).2 =
        GetDocumentCount s + 1 ∧
      GetDocumentId (AddDocument isSpace s document_id document status ratings).2
          (GetDocumentCount (AddDocument isSpace s document_id document status ratings).2 - 1) =
        .ok document_id := by
  obtain ⟨h1, h2, h3⟩ :=
    AddDocument_ok_conditions isSpace s document_id document status ratings hok
  have hinv := reachable_invariant isSpace s hs
  have hnone := (StdMap.count_eq_zero_iff _ _).mp h2
  have hlen := StdMap.length_emplace s.documents_ document_id
    { rating := ComputeAverageRating ratings, status := status } hnone
  rw [AddDocument_of_valid isSpace s document_id document status ratings h1 h2 h3]
  unfold StdMap.size at hsize
  have hcount : GetDocumentCount
      { s with
        word_to_document_freqs_ :=
          AddDocument.loop document_id
            (1 / ((SplitIntoWordsNoStop isSpace s document).length : Rat))
            (SplitIntoWordsNoStop isSpace s document) s.word_to_document_freqs_
        documents_ :=
          StdMap.emplace s.documents_ document_id
            { rating := ComputeAverageRating ratings, status := status }
        documents_index_ := s.documents_index_ ++ [document_id] } =
      (s.documents_.length : Int) + 1 := by
    simp only [GetDocumentCount, StdMap.size, hlen]
    rw [toInt32_of_fits] <;> push_cast <;> omega
  have hbefore : GetDocumentCount s = (s.documents_.length : Int) := by
    simp only [GetDocumentCount, StdMap.size]
    rw [toInt32_of_fits] <;> omega
  refine ⟨by rw [hcount, hbefore], ?_⟩
  rw [hcount]
  simp only [GetDocumentId, add_sub_cancel_right]
  rw [toSizeT_natCast _ (by omega), ← hinv.index_length]
  simp

/-- C3 applied to the example server and the new id 5. -/
theorem C3_AddDocument_count_and_last_witness :
    GetDocumentCount
        (AddDocument spaceOnly exampleServer 5 (ascii "fluffy dog") DocumentStatus.BANNED [4]).2 =
        GetDocumentCount exampleServer + 1 ∧
      GetDocumentId
          (AddDocument spaceOnly exampleServer 5 (ascii "fluffy dog") DocumentStatus.BANNED [4]).2
          (GetDocumentCount
            (AddDocument spaceOnly exampleServer 5 (ascii "fluffy dog")
              DocumentStatus.BANNED [4]).2 - 1) =
        .ok 5 :=
  C3_AddDocument_count_and_last spaceOnly exampleServer exampleServer_reachable 5
    (ascii "fluffy dog") DocumentStatus.BANNED [4] (by decide) (by decide)


/-! ## Term frequencies -/

theorem storedFrequency_addFrequency (index : List (Str × List (Int × Rat))) (word : Str)
    (document_id : Int) (inv_word_count : Rat) (w : Str) :
    storedFrequency (addFrequency index word document_id inv_word_count) w document_id =
      if w = word then some ((storedFrequency index w document_id).getD 0 + inv_word_count)
      else storedFrequency index w document_id := by
  unfold storedFrequency addFrequency
  rw [StdMap.find_modify]
  by_cases h : w = word
  · subst h
    simp only [if_true, StdMap.find_modify]
    cases StdMap.find index w with
    | none => simp [StdMap.find]
    | some freqs => simp
  · simp [h]

theorem storedFrequency_loop (document_id : Int) (inv_word_count : Rat) (words : List Str)
    (index : List (Str × List (Int × Rat))) (w : Str) :
    storedFrequency (AddDocument.loop document_id inv_word_count words index) w document_id =
      if words.count w = 0 then storedFrequency index w document_id
      else some ((storedFrequency index w document_id).getD 0 +
        (words.count w : Rat) * inv_word_count) := by
  induction words generalizing index with
  | nil => simp [AddDocument.loop]
  | cons word rest ih =>
    simp only [AddDocument.loop, ih, storedFrequency_addFrequency]
    by_cases h : w = word
    · subst h
      by_cases hc : rest.count w = 0
      · simp [hc]
      · simp only [hc, if_false, if_true, Option.getD_some, List.count_cons_self,
          Nat.succ_ne_zero]
        push_cast
        congr 1
        ring
    · have hne : (word == w) = false := by
        simpa using fun h' => h h'.symm
      simp [h, List.count_cons, hne]

/-- In a state that satisfies the invariant, an id that is not in the store has
no frequency stored in the inverted index. -/
theorem storedFrequency_fresh (s : SearchServer) (h : Invariant s) (document_id : Int)
    (hnone : StdMap.find s.documents_ document_id = none) (w : Str) :
    storedFrequency s.word_to_document_freqs_ w document_id = none := by
  unfold storedFrequency
  cases hw : StdMap.find s.word_to_document_freqs_ w with
  | none => rfl
  | some freqs =>
    cases hd : StdMap.find freqs document_id with
    | none => exact hd
    | some x =>
      exact absurd hnone (h.postings_stored _ (StdMap.find_mem _ _ _ hw) _
        (StdMap.find_mem _ _ _ hd))

theorem frequencySum_addFrequency (index : List (Str × List (Int × Rat))) (word : Str)
    (document_id : Int) (inv_word_count : Rat) :
    frequencySum (addFrequency index word document_id inv_word_count) document_id =
      frequencySum index document_id + inv_word_count := by
  unfold frequencySum addFrequency
  induction index with
  | nil => simp [StdMap.modify, StdMap.find]
  | cons e index ih =>
    obtain ⟨k', v'⟩ := e
    by_cases h1 : word < k'
    · simp [StdMap.modify, h1, StdMap.find]
      ring
    · by_cases h2 : word = k'
      · subst h2
        simp [StdMap.modify, StdMap.find_modify]
        ring
      · simp only [StdMap.modify, h1, h2, if_false, List.map_cons, List.sum_cons, ih]
        ring

theorem frequencySum_loop (document_id : Int) (inv_word_count : Rat) (words : List Str)
    (index : List (Str × List (Int × Rat))) :
    frequencySum (AddDocument.loop document_id inv_word_count words index) document_id =
      frequencySum index document_id + (words.length : Rat) * inv_word_count := by
  induction words generalizing index with
  | nil => simp [AddDocument.loop]
  | cons word rest ih =>
    simp only [AddDocument.loop, ih, frequencySum_addFrequency, List.length_cons]
    push_cast
    ring

theorem frequencySum_fresh (s : SearchServer) (h : Invariant s) (document_id : Int)
    (hnone : StdMap.find s.documents_ document_id = none) :
    frequencySum s.word_to_document_freqs_ document_id = 0 := by
  unfold frequencySum
  apply List.sum_eq_zero
  intro x hx
  obtain ⟨e, he, rfl⟩ := List.mem_map.mp hx
  cases hd : StdMap.find e.2 document_id with
  | none => rfl
  | some y =>
    exact absurd hnone (h.postings_stored e he _ (StdMap.find_mem _ _ _ hd))

/-- C4: after a call of `AddDocument` with id `d` that completes normally on a
reachable server, the frequency stored in the inverted index for a term `w` and
`d` is the number of occurrences of `w` among the tokens of the text that are not
stop words divided by the number of such tokens; a term that does not occur has no
entry for `d`. -/
theorem C4_AddDocument_term_frequency (isSpace : Byte → Bool) (s : SearchServer)
    (hs : Reachable isSpace s) (document_id : Int) (document : Str)
    (status : DocumentStatus) (ratings : List Int)
    (hok : (AddDocument isSpace s document_id document status ratings).1 = .ok ())
    (w : Str) :
    storedFrequency
        (AddDocument isSpace s document_id document status ratings).2.word_to_document_freqs_
        w document_id =
      if ((SplitIntoWords isSpace document).filter (fun t => !IsStopWord s t)).count w = 0 then
        none
      else
        some
          ((((SplitIntoWords isSpace document).filter (fun t => !IsStopWord s t)).count w : Rat) /
            (((SplitIntoWords isSpace document).filter (fun t => !IsStopWord s t)).length : Rat))
    := by
  obtain ⟨h1, h2, h3⟩ :=
    AddDocument_ok_conditions isSpace s document_id document status ratings hok
  have hnone := (StdMap.count_eq_zero_iff _ _).mp h2
  have hfresh := storedFrequency_fresh s (reachable_invariant isSpace s hs) document_id hnone w
  rw [AddDocument_of_valid isSpace s document_id document status ratings h1 h2 h3]
  simp only [storedFrequency_loop, hfresh, SplitIntoWordsNoStop]
  split
  · rfl
  · simp only [Option.getD_none, zero_add]
    congr 1
    ring

/-- C4 applied to the example server and the document "cat dog cat and" with the
new id 3: "and" is a stop word, so "cat" gets 2/3. -/
theorem C4_AddDocument_term_frequency_witness :
    storedFrequency
        (AddDocument spaceOnly exampleServer 3 (ascii "cat dog cat and")
          DocumentStatus.ACTUAL []).2.word_to_document_freqs_
        (ascii "cat") 3 = some (2 / 3) := by
  have h := C4_AddDocument_term_frequency spaceOnly exampleServer exampleServer_reachable 3
    (ascii "cat dog cat and") DocumentStatus.ACTUAL [] (by decide) (ascii "cat")
  have hc : ((SplitIntoWords spaceOnly (ascii "cat dog cat and")).filter
      (fun t => !IsStopWord exampleServer t)).count (ascii "cat") = 2 := by decide
  have hl : ((SplitIntoWords spaceOnly (ascii "cat dog cat and")).filter
      (fun t => !IsStopWord exampleServer t)).length = 3 := by decide
  rw [hc, hl] at h
  rw [h]
  norm_num


theorem frequencySum_AddDocument (isSpace : Byte → Bool) (s : SearchServer)
    (hs : Reachable isSpace s) (document_id : Int) (document : Str)
    (status : DocumentStatus) (ratings : List Int)
    (hok : (AddDocument isSpace s document_id document status ratings).1 = .ok ()) :
    frequencySum
        (AddDocument isSpace s document_id document status ratings).2.word_to_document_freqs_
        document_id =
      if (SplitIntoWords isSpace document).filter (fun t => !IsStopWord s t) = [] then 0
      else 1 := by
  obtain ⟨h1, h2, h3⟩ :=
    AddDocument_ok_conditions isSpace s document_id document status ratings hok
  have hnone := (StdMap.count_eq_zero_iff _ _).mp h2
  have hfresh := frequencySum_fresh s (reachable_invariant isSpace s hs) document_id hnone
  rw [AddDocument_of_valid isSpace s document_id document status ratings h1 h2 h3]
  simp only [frequencySum_loop, hfresh, SplitIntoWordsNoStop, zero_add]
  split
  · next h => simp [h]
  · next h =>
    have hlen : (((SplitIntoWords isSpace document).filter
        (fun t => !IsStopWord s t)).length : Rat) ≠ 0 := by
      simpa using h
    field_simp

/-- The ingestion of another id leaves the frequency sum of `d` alone. -/
theorem frequencySum_addFrequency_other (index : List (Str × List (Int × Rat))) (word : Str)
    (document_id : Int) (inv_word_count : Rat) (d : Int) (hd : d ≠ document_id) :
    frequencySum (addFrequency index word document_id inv_word_count) d =
      frequencySum index d := by
  unfold frequencySum addFrequency
  induction index with
  | nil => simp [StdMap.modify, StdMap.find, hd]
  | cons e index ih =>
    obtain ⟨k', v'⟩ := e
    by_cases h1 : word < k'
    · simp [StdMap.modify, h1, StdMap.find, hd]
    · by_cases h2 : word = k'
      · subst h2
        simp [StdMap.modify, StdMap.find_modify, hd]
      · simp only [StdMap.modify, h1, h2, if_false, List.map_cons, List.sum_cons, ih]

theorem frequencySum_loop_other (document_id : Int) (inv_word_count : Rat) (words : List Str)
    (index : List (Str × List (Int × Rat))) (d : Int) (hd : d ≠ document_id) :
    frequencySum (AddDocument.loop document_id inv_word_count words index) d =
      frequencySum index d := by
  induction words generalizing index with
  | nil => simp [AddDocument.loop]
  | cons word rest ih =>
    simp only [AddDocument.loop, ih, frequencySum_addFrequency_other _ _ _ _ _ hd]

/-- A stored document stays stored, and the sum of its frequencies stays what it
is, whatever `AddDocument` calls follow. -/
theorem frequencySum_later (isSpace : Byte → Bool) (s t : SearchServer)
    (h : ReachableFrom isSpace s t) (d : Int) (hd : StdMap.find s.documents_ d ≠ none) :
    StdMap.find t.documents_ d ≠ none ∧
      frequencySum t.word_to_document_freqs_ d = frequencySum s.word_to_document_freqs_ d := by
  induction h with
  | refl => exact ⟨hd, rfl⟩
  | add t _ document_id document status ratings ih =>
    cases hres : (AddDocument isSpace t document_id document status ratings).1 with
    | error e =>
      rw [AddDocument_error_state isSpace t document_id document status ratings e hres]
      exact ih
    | ok u =>
      obtain ⟨h1, h2, h3⟩ :=
        AddDocument_ok_conditions isSpace t document_id document status ratings hres
      have hne : d ≠ document_id := by
        intro heq
        subst heq
        exact ih.1 ((StdMap.count_eq_zero_iff _ _).mp h2)
      rw [AddDocument_of_valid isSpace t document_id document status ratings h1 h2 h3]
      refine ⟨?_, ?_⟩
      · simp only [StdMap.find_emplace, if_neg hne]
        exact ih.1
      · simp only [frequencySum_loop_other _ _ _ _ _ hne]
        exact ih.2

/-- C5 (amended): when `AddDocument` completes normally for id `d` on a reachable
server and the text has at least one token that is not a stop word, then in the
state after the call and in every state reached from it by further `AddDocument`
calls the frequencies stored for `d`, summed over all terms of the inverted
index, give exactly 1.  When the text has no such token the sum is 0. -/
theorem C5_frequency_sum (isSpace : Byte → Bool) (s : SearchServer)
    (hs : Reachable isSpace s) (document_id : Int) (document : Str)
    (status : DocumentStatus) (ratings : List Int)
    (hok : (AddDocument isSpace s document_id document status ratings).1 = .ok ())
    (t : SearchServer)
    (ht : ReachableFrom isSpace
      (AddDocument isSpace s document_id document status ratings).2 t) :
    frequencySum t.word_to_document_freqs_ document_id =
      if (SplitIntoWords isSpace document).filter (fun w => !IsStopWord s w) = [] then 0
      else 1 := by
  have hstored : StdMap.find
      (AddDocument isSpace s document_id document status ratings).2.documents_ document_id ≠
      none := by
    obtain ⟨h1, h2, h3⟩ :=
      AddDocument_ok_conditions isSpace s document_id document status ratings hok
    rw [AddDocument_of_valid isSpace s document_id document status ratings h1 h2 h3]
    simp [StdMap.find_emplace]
  rw [(frequencySum_later isSpace _ t ht document_id hstored).2]
  exact frequencySum_AddDocument isSpace s hs document_id document status ratings hok

/-- C5 applied to the example server: document 3 = "cat dog cat and" is ingested,
then document 4 = "dog"; the frequencies of document 3 still sum to 1. -/
theorem C5_frequency_sum_witness :
    frequencySum
        (AddDocument spaceOnly
          (AddDocument spaceOnly exampleServer 3 (ascii "cat dog cat and")
            DocumentStatus.ACTUAL []).2
          4 (ascii "dog") DocumentStatus.ACTUAL [1]).2.word_to_document_freqs_ 3 = 1 := by
  have h := C5_frequency_sum spaceOnly exampleServer exampleServer_reachable 3
    (ascii "cat dog cat and") DocumentStatus.ACTUAL [] (by decide) _
    (ReachableFrom.add _ (ReachableFrom.refl) 4 (ascii "dog") DocumentStatus.ACTUAL [1])
  rw [h]
  decide

/-- C5 as stated fails: a freshly constructed server ingests the empty text under
id 0 successfully, the document has no term in the inverted index, and the sum of
its frequencies is 0, not 1. -/
theorem C5_frequency_sum_counterexample :
    Reachable spaceOnly (SearchServer.empty []) ∧
      (AddDocument spaceOnly (SearchServer.empty []) 0 [] DocumentStatus.ACTUAL []).1 =
        .ok () ∧
      frequencySum
        (AddDocument spaceOnly (SearchServer.empty []) 0 []
          DocumentStatus.ACTUAL []).2.word_to_document_freqs_ 0 ≠ 1 := by
  refine ⟨Reachable.init [], by decide, ?_⟩
  rw [frequencySum_AddDocument spaceOnly (SearchServer.empty []) (Reachable.init []) 0
    [] DocumentStatus.ACTUAL [] (by decide)]
  decide


/-! ## The average rating -/

theorem toInt32_range (x : Int) : -2147483648 ≤ toInt32 x ∧ toInt32 x < 2147483648 := by
  unfold toInt32
  omega

theorem toInt32_add_left (a b : Int) : toInt32 (toInt32 a + b) = toInt32 (a + b) := by
  unfold toInt32
  omega

theorem accumulate_congruent (xs : List Int) (init : Int) :
    toInt32 (accumulate xs init) = toInt32 (init + xs.sum) := by
  unfold accumulate
  induction xs generalizing init with
  | nil => simp
  | cons x xs ih =>
    simp only [List.foldl_cons, List.sum_cons]
    rw [ih, toInt32_add_left, add_assoc]

theorem accumulate_range (xs : List Int) (init : Int)
    (h : -2147483648 ≤ init ∧ init < 2147483648) :
    -2147483648 ≤ accumulate xs init ∧ accumulate xs init < 2147483648 := by
  unfold accumulate
  induction xs generalizing init with
  | nil => simpa using h
  | cons x xs ih =>
    simp only [List.foldl_cons]
    exact ih _ (toInt32_range _)

/-- When the sum of the ratings fits in an `int`, `accumulate` returns it (also
when a partial sum wraps around on the way). -/
theorem accumulate_eq_sum (xs : List Int)
    (hsum : -2147483648 ≤ xs.sum ∧ xs.sum < 2147483648) : accumulate xs 0 = xs.sum := by
  have hr := accumulate_range xs 0 (by omega)
  have hc := accumulate_congruent xs 0
  rw [toInt32_of_fits _ hr.1 hr.2, zero_add, toInt32_of_fits _ hsum.1 hsum.2] at hc
  exact hc

theorem tdiv_eq_floor_or_ceil (a : Int) (n : Nat) :
    Int.tdiv a (n : Int) =
      if 0 ≤ a then Int.floor ((a : Rat) / (n : Rat)) else Int.ceil ((a : Rat) / (n : Rat)) := by
  split
  · next h =>
    rw [Rat.floor_intCast_div_natCast, Int.tdiv_eq_ediv h (Int.natCast_nonneg n)]
  · next h =>
    have hneg : 0 ≤ -a := by omega
    have h1 : Int.tdiv a (n : Int) = -Int.tdiv (-a) (n : Int) := by
      rw [Int.neg_tdiv, neg_neg]
    have h2 : Int.ceil ((a : Rat) / (n : Rat)) = -Int.floor (((-a : Int) : Rat) / (n : Rat)) := by
      rw [← Int.ceil_neg]
      congr 1
      push_cast
      ring
    rw [h1, h2, Rat.floor_intCast_div_natCast, Int.tdiv_eq_ediv hneg (Int.natCast_nonneg n)]

theorem find_documents_AddDocument (isSpace : Byte → Bool) (s : SearchServer)
    (document_id : Int) (document : Str) (status : DocumentStatus) (ratings : List Int)
    (hok : (AddDocument isSpace s document_id document status ratings).1 = .ok ()) :
    StdMap.find (AddDocument isSpace s document_id document status ratings).2.documents_
        document_id =
      some { rating := ComputeAverageRating ratings, status := status } := by
  obtain ⟨h1, h2, h3⟩ :=
    AddDocument_ok_conditions isSpace s document_id document status ratings hok
  rw [AddDocument_of_valid isSpace s document_id document status ratings h1 h2 h3]
  simp [StdMap.find_emplace, (StdMap.count_eq_zero_iff _ _).mp h2]

/-- C6 (amended): for every list of ratings whose sum fits in a 32 bit `int` and
whose length fits in an `int`, `ComputeAverageRating` returns 0 when the list is
empty and otherwise the quotient of the sum by the length truncated towards zero:
the floor of the arithmetic mean when the sum is not negative, its ceiling when
the sum is negative.  This value is the rating stored for the document by a call
of `AddDocument` that completes normally. -/
theorem C6_ComputeAverageRating (ratings : List Int)
    (hsum : -2147483648 ≤ ratings.sum ∧ ratings.sum < 2147483648)
    (hlen : ratings.length < 2147483648) :
    ComputeAverageRating ratings =
        (if ratings = [] then 0
        else if 0 ≤ ratings.sum then
          Int.floor ((ratings.sum : Rat) / (ratings.length : Rat))
        else Int.ceil ((ratings.sum : Rat) / (ratings.length : Rat))) ∧
      ∀ (isSpace : Byte → Bool) (s : SearchServer) (document_id : Int) (document : Str)
        (status : DocumentStatus),
        (AddDocument isSpace s document_id document status ratings).1 = .ok () →
        StdMap.find (AddDocument isSpace s document_id document status ratings).2.documents_
            document_id =
          some { rating := ComputeAverageRating ratings, status := status } := by
  refine ⟨?_, fun isSpace s document_id document status hok =>
    find_documents_AddDocument isSpace s document_id document status ratings hok⟩
  by_cases hnil : ratings = []
  · simp [hnil, ComputeAverageRating]
  · have hne : ratings.isEmpty = false := by
      cases ratings with
      | nil => exact absurd rfl hnil
      | cons x xs => rfl
    simp only [ComputeAverageRating, hne, if_neg hnil, Bool.false_eq_true, if_false]
    rw [accumulate_eq_sum ratings hsum, toInt32_of_fits _ (by omega) (by omega)]
    exact tdiv_eq_floor_or_ceil _ _

/-- C6 applied to the ratings `[-1, 0]`: the mean is -1/2 and the result is 0, its
ceiling. -/
theorem C6_ComputeAverageRating_witness :
    ComputeAverageRating [-1, 0] = 0 ∧
      Int.ceil ((([-1, 0] : List Int).sum : Rat) / (([-1, 0] : List Int).length : Rat)) = 0 := by
  have h := (C6_ComputeAverageRating [-1, 0] (by decide) (by decide)).1
  have hs : ¬ (0 : Int) ≤ ([-1, 0] : List Int).sum := by decide
  rw [if_neg (by decide), if_neg hs] at h
  exact ⟨by decide, by rw [← h]; decide⟩

/-- C6 as stated fails: the ratings `[-1, 0]` have the sum -1, which fits in an
`int`, and the mean -1/2, whose floor is -1, but `ComputeAverageRating` returns 0. -/
theorem C6_ComputeAverageRating_counterexample :
    ComputeAverageRating [-1, 0] = 0 ∧
      Int.floor ((([-1, 0] : List Int).sum : Rat) / (([-1, 0] : List Int).length : Rat)) = -1 := by
  refine ⟨by decide, ?_⟩
  rw [Int.floor_eq_iff]
  norm_num


/-! ## The query parser -/

namespace StdSet

variable {K : Type} [LinearOrder K]

theorem mem_insert (s : List K) (k x : K) : x ∈ insert s k ↔ x = k ∨ x ∈ s := by
  induction s with
  | nil => simp [insert]
  | cons k' s ih =>
    by_cases h1 : k < k'
    · simp [insert, h1]
    · by_cases h2 : k = k'
      · subst h2
        simp [insert]
      · simp only [insert, h1, h2, if_false, List.mem_cons, ih]
        tauto

theorem sorted_insert (s : List K) (k : K) (h : s.Sorted (· < ·)) :
    (insert s k).Sorted (· < ·) := by
  induction s with
  | nil => simp [insert]
  | cons k' s ih =>
    simp only [List.sorted_cons] at h
    by_cases h1 : k < k'
    · simp only [insert, h1, if_true, List.sorted_cons, List.mem_cons]
      refine ⟨?_, h⟩
      rintro b (rfl | hb)
      · exact h1
      · exact lt_trans h1 (h.1 b hb)
    · by_cases h2 : k = k'
      · subst h2
        simpa [insert] using h
      · simp only [insert, h1, h2, if_false, List.sorted_cons]
        refine ⟨?_, ih h.2⟩
        intro b hb
        rcases (mem_insert s k b).mp hb with hb | hb
        · subst hb
          exact lt_of_le_of_ne (not_lt.mp h1) (Ne.symm h2)
        · exact h.1 b hb

/-- Two sets in ascending order with the same elements are the same list. -/
theorem eq_of_sorted_of_mem_iff (s t : List K) (hs : s.Sorted (· < ·)) (ht : t.Sorted (· < ·))
    (h : ∀ x, x ∈ s ↔ x ∈ t) : s = t :=
  List.eq_of_perm_of_sorted ((List.perm_ext_iff_of_nodup hs.nodup ht.nodup).mpr h) hs ht

end StdSet

theorem SplitIntoWords_loop_ne_nil (isSpace : Byte → Bool) (text : List Byte) (word : Str) :
    ∀ t ∈ SplitIntoWords.loop isSpace text word, t ≠ [] := by
  induction text generalizing word with
  | nil =>
    intro t ht
    by_cases hw : word = []
    · simp [SplitIntoWords.loop, hw] at ht
    · simp only [SplitIntoWords.loop, hw, if_false, List.mem_singleton] at ht
      rw [ht]
      exact hw
  | cons c rest ih =>
    intro t ht
    by_cases hc : isSpace c = true
    · by_cases hw : word = []
      · simp only [SplitIntoWords.loop, hc, hw, if_true] at ht
        exact ih [] t ht
      · simp only [SplitIntoWords.loop, hc, hw, if_true, if_false, List.mem_cons] at ht
        rcases ht with ht | ht
        · rw [ht]
          exact hw
        · exact ih [] t ht
    · simp only [SplitIntoWords.loop, hc, if_false] at ht
      exact ih _ t ht

/-- No token of `SplitIntoWords` is empty. -/
theorem SplitIntoWords_ne_nil (isSpace : Byte → Bool) (text : Str) :
    ∀ t ∈ SplitIntoWords isSpace text, t ≠ [] :=
  SplitIntoWords_loop_ne_nil isSpace text []

/-- A query token is malformed when it is exactly "-", or begins with "--", or
has a byte in `0x00..0x1F`. -/
theorem ParseQueryWord_malformed (s : SearchServer) (t : Str)
    (h : t = [45] ∨ (∃ rest, t = 45 :: 45 :: rest) ∨ ∃ c ∈ t, c.val < 32) (hne : t ≠ []) :
    ParseQueryWord s t = .error (.invalid_argument "один или более минусов") := by
  cases t with
  | nil => exact absurd rfl hne
  | cons c r =>
    by_cases hc : c = 45
    · subst hc
      have hbad : r = [] ∨ r.head? = some 45 ∨ IsValidWord r = false := by
        rcases h with h | ⟨rest, h⟩ | ⟨c, hc, hlt⟩
        · left
          simpa using h
        · right
          left
          simp only [List.cons.injEq, true_and] at h
          simp [h]
        · right
          right
          rw [IsValidWord_eq_false_iff]
          rcases List.mem_cons.mp hc with hc | hc
          · subst hc
            exact absurd hlt (by decide)
          · exact ⟨c, hc, hlt⟩
      simp only [ParseQueryWord, List.head?_cons, decide_True, if_true, List.drop_succ_cons,
        List.drop_zero, hbad, reduceCtorEq, if_false]
    · have hbad : IsValidWord (c :: r) = false := by
        rw [IsValidWord_eq_false_iff]
        rcases h with h | ⟨rest, h⟩ | h
        · simp only [List.cons.injEq] at h
          exact absurd h.1 hc
        · simp only [List.cons.injEq] at h
          exact absurd h.1 hc
        · exact h
      have hhead : ¬ (some c = some (45 : Byte)) := by
        simpa using hc
      simp [ParseQueryWord, hhead, hbad, hc]

/-- A token that is not malformed parses: a leading "-" is stripped and makes it a
minus-word, and the stop-word test is made on what remains. -/
theorem ParseQueryWord_wellformed (s : SearchServer) (t : Str)
    (h : ¬ (t = [45] ∨ (∃ rest, t = 45 :: 45 :: rest) ∨ ∃ c ∈ t, c.val < 32)) (hne : t ≠ []) :
    ParseQueryWord s t =
      .ok { data := if t.head? = some 45 then t.drop 1 else t
            is_minus := decide (t.head? = some 45)
            is_stop := IsStopWord s (if t.head? = some 45 then t.drop 1 else t) } := by
  push_neg at h
  obtain ⟨hminus, hdouble, hctrl⟩ := h
  cases t with
  | nil => exact absurd rfl hne
  | cons c r =>
    by_cases hc : c = 45
    · subst hc
      have h1 : r ≠ [] := by
        intro hr
        exact hminus (by rw [hr])
      have h2 : ¬ r.head? = some 45 := by
        intro hr
        cases r with
        | nil => simp at hr
        | cons c2 r2 =>
          simp only [List.head?_cons, Option.some.injEq] at hr
          exact hdouble r2 (by rw [hr])
      have h3 : IsValidWord r = true := by
        rw [IsValidWord_eq_true_iff]
        intro c hc
        exact hctrl c (List.mem_cons_of_mem _ hc)
      simp [ParseQueryWord, h1, h2, h3]
    · have h3 : IsValidWord (c :: r) = true := by
        rw [IsValidWord_eq_true_iff]
        exact hctrl
      simp [ParseQueryWord, hc, h3]

theorem ParseQueryWord_error_iff (s : SearchServer) (t : Str) (hne : t ≠ []) :
    (∃ e, ParseQueryWord s t = .error e) ↔
      (t = [45] ∨ (∃ rest, t = 45 :: 45 :: rest) ∨ ∃ c ∈ t, c.val < 32) := by
  constructor
  · rintro ⟨e, he⟩
    by_contra hgood
    rw [ParseQueryWord_wellformed s t hgood hne] at he
    exact absurd he (by simp)
  · intro hbad
    exact ⟨_, ParseQueryWord_malformed s t hbad hne⟩

theorem ParseQuery_loop_error_iff (s : SearchServer) (words : List Str) (result : Query) :
    (∃ e, ParseQuery.loop s words result = .error e) ↔
      ∃ t ∈ words, ∃ e, ParseQueryWord s t = .error e := by
  induction words generalizing result with
  | nil => simp [ParseQuery.loop]
  | cons word rest ih =>
    cases hw : ParseQueryWord s word with
    | error e =>
      simp only [ParseQuery.loop, hw]
      constructor
      · intro _
        exact ⟨word, List.mem_cons_self _ _, e, hw⟩
      · intro _
        exact ⟨e, rfl⟩
    | ok query_word =>
      simp only [ParseQuery.loop, hw]
      have hstep : ∀ result2 : Query,
          (∃ e, ParseQuery.loop s rest result2 = .error e) ↔
            ∃ t ∈ word :: rest, ∃ e, ParseQueryWord s t = .error e := by
        intro result2
        rw [ih result2]
        constructor
        · rintro ⟨t, ht, he⟩
          exact ⟨t, List.mem_cons_of_mem _ ht, he⟩
        · rintro ⟨t, ht, e, he⟩
          rcases List.mem_cons.mp ht with ht | ht
          · subst ht
            rw [hw] at he
            exact absurd he (by simp)
          · exact ⟨t, ht, e, he⟩
      split
      · split
        · exact hstep _
        · exact hstep _
      · exact hstep _

/-- C7: for every stop-word set and every raw query text, `ParseQuery` throws if
and only if some token of the text is exactly "-", or begins with "--", or has a
byte in `0x00..0x1F`; in every other case it returns a structured query.  The
condition does not mention the stop words: they rescue no malformed token. -/
theorem C7_ParseQuery_failure (isSpace : Byte → Bool) (s : SearchServer) (text : Str) :
    ((∃ e, ParseQuery isSpace s text = .error e) ↔
        ∃ t ∈ SplitIntoWords isSpace text,
          t = [45] ∨ (∃ rest, t = 45 :: 45 :: rest) ∨ ∃ c ∈ t, c.val < 32) ∧
      ((∃ q, ParseQuery isSpace s text = .ok q) ↔
        ¬ ∃ t ∈ SplitIntoWords isSpace text,
          t = [45] ∨ (∃ rest, t = 45 :: 45 :: rest) ∨ ∃ c ∈ t, c.val < 32) := by
  have hiff : (∃ e, ParseQuery isSpace s text = .error e) ↔
      ∃ t ∈ SplitIntoWords isSpace text,
        t = [45] ∨ (∃ rest, t = 45 :: 45 :: rest) ∨ ∃ c ∈ t, c.val < 32 := by
    unfold ParseQuery
    rw [ParseQuery_loop_error_iff]
    constructor
    · rintro ⟨t, ht, he⟩
      exact ⟨t, ht, (ParseQueryWord_error_iff s t (SplitIntoWords_ne_nil isSpace text t ht)).mp he⟩
    · rintro ⟨t, ht, hbad⟩
      exact ⟨t, ht,
        (ParseQueryWord_error_iff s t (SplitIntoWords_ne_nil isSpace text t ht)).mpr hbad⟩
  refine ⟨hiff, ?_⟩
  rw [← hiff]
  cases ParseQuery isSpace s text with
  | error e => simp
  | ok q => simp


/-- The exception `ParseQuery` throws is the one `ParseQueryWord` threw for a token. -/
theorem ParseQuery_loop_error_source (s : SearchServer) (words : List Str) (result : Query)
    (e : Exception) (h : ParseQuery.loop s words result = .error e) :
    ∃ t ∈ words, ParseQueryWord s t = .error e := by
  induction words generalizing result with
  | nil => simp [ParseQuery.loop] at h
  | cons word rest ih =>
    cases hw : ParseQueryWord s word with
    | error e2 =>
      simp only [ParseQuery.loop, hw, Except.error.injEq] at h
      exact ⟨word, List.mem_cons_self _ _, by rw [hw, h]⟩
    | ok query_word =>
      simp only [ParseQuery.loop, hw] at h
      have hstep : ∀ result2 : Query, ParseQuery.loop s rest result2 = .error e →
          ∃ t ∈ word :: rest, ParseQueryWord s t = .error e := by
        intro result2 h2
        obtain ⟨t, ht, he⟩ := ih result2 h2
        exact ⟨t, List.mem_cons_of_mem _ ht, he⟩
      split at h
      · split at h
        · exact hstep _ h
        · exact hstep _ h
      · exact hstep _ h

/-- One round of the loop of `ParseQuery` on a well-formed token that begins with "-". -/
theorem ParseQuery_loop_cons_minus (s : SearchServer) (r : Str) (rest : List Str)
    (result : Query)
    (h : ¬ ((45 :: r : Str) = [45] ∨ (∃ rest, (45 :: r : Str) = 45 :: 45 :: rest) ∨
      ∃ c ∈ (45 :: r : Str), c.val < 32)) :
    ParseQuery.loop s ((45 :: r) :: rest) result =
      ParseQuery.loop s rest
        (if IsStopWord s r = true then result
         else { result with minus_words := StdSet.insert result.minus_words r }) := by
  simp only [ParseQuery.loop, ParseQueryWord_wellformed s (45 :: r) h (by simp)]
  by_cases hstop : IsStopWord s r = true
  · simp [hstop]
  · simp [hstop]

/-- One round of the loop of `ParseQuery` on a well-formed token that does not begin
with "-". -/
theorem ParseQuery_loop_cons_plus (s : SearchServer) (word : Str) (rest : List Str)
    (result : Query) (hne : word ≠ []) (hhead : word.head? ≠ some 45)
    (h : ¬ (word = [45] ∨ (∃ rest, word = 45 :: 45 :: rest) ∨ ∃ c ∈ word, c.val < 32)) :
    ParseQuery.loop s (word :: rest) result =
      ParseQuery.loop s rest
        (if IsStopWord s word = true then result
         else { result with plus_words := StdSet.insert result.plus_words word }) := by
  simp only [ParseQuery.loop, ParseQueryWord_wellformed s word h hne]
  by_cases hstop : IsStopWord s word = true
  · simp [hstop, hhead]
  · simp [hstop, hhead]

/-- What the loop of `ParseQuery` adds to the two sets of `result`. -/
theorem ParseQuery_loop_spec (s : SearchServer) (words : List Str)
    (hne : ∀ t ∈ words, t ≠ []) (result q : Query)
    (h : ParseQuery.loop s words result = .ok q) :
    (∀ t, t ∈ q.plus_words ↔
        t ∈ result.plus_words ∨ (t ∈ words ∧ t.head? ≠ some 45 ∧ IsStopWord s t = false)) ∧
      (∀ t, t ∈ q.minus_words ↔
        t ∈ result.minus_words ∨ ((45 :: t) ∈ words ∧ IsStopWord s t = false)) ∧
      (result.plus_words.Sorted (· < ·) → q.plus_words.Sorted (· < ·)) ∧
      (result.minus_words.Sorted (· < ·) → q.minus_words.Sorted (· < ·)) := by
  induction words generalizing result with
  | nil =>
    simp only [ParseQuery.loop, Except.ok.injEq] at h
    subst h
    simp
  | cons word rest ih =>
    have hword : word ≠ [] := hne word (List.mem_cons_self _ _)
    have hrest : ∀ t ∈ rest, t ≠ [] := fun t ht => hne t (List.mem_cons_of_mem _ ht)
    have hgood : ¬ (word = [45] ∨ (∃ rest, word = 45 :: 45 :: rest) ∨
        ∃ c ∈ word, c.val < 32) := by
      intro hbad
      have hfail := ParseQueryWord_malformed s word hbad hword
      simp [ParseQuery.loop, hfail] at h
    by_cases hhead : word.head? = some 45
    · obtain ⟨r, rfl⟩ : ∃ r, word = 45 :: r := by
        cases word with
        | nil => exact absurd rfl hword
        | cons c r =>
          simp only [List.head?_cons, Option.some.injEq] at hhead
          exact ⟨r, by rw [hhead]⟩
      rw [ParseQuery_loop_cons_minus s r rest result hgood] at h
      by_cases hstop : IsStopWord s r = true
      · rw [if_pos hstop] at h
        obtain ⟨hp, hm, hsp, hsm⟩ := ih hrest _ h
        refine ⟨?_, ?_, hsp, hsm⟩
        · intro t
          rw [hp t]
          constructor
          · rintro (ht | ⟨ht, h1, h2⟩)
            · exact Or.inl ht
            · exact Or.inr ⟨List.mem_cons_of_mem _ ht, h1, h2⟩
          · rintro (ht | ⟨ht, h1, h2⟩)
            · exact Or.inl ht
            · rcases List.mem_cons.mp ht with ht | ht
              · subst ht
                exact absurd rfl h1
              · exact Or.inr ⟨ht, h1, h2⟩
        · intro t
          rw [hm t]
          constructor
          · rintro (ht | ⟨ht, h2⟩)
            · exact Or.inl ht
            · exact Or.inr ⟨List.mem_cons_of_mem _ ht, h2⟩
          · rintro (ht | ⟨ht, h2⟩)
            · exact Or.inl ht
            · rcases List.mem_cons.mp ht with ht | ht
              · simp only [List.cons.injEq, true_and] at ht
                subst ht
                rw [hstop] at h2
                exact absurd h2 (by simp)
              · exact Or.inr ⟨ht, h2⟩
      · rw [if_neg hstop] at h
        obtain ⟨hp, hm, hsp, hsm⟩ := ih hrest _ h
        dsimp only at hp hm hsp hsm
        refine ⟨?_, ?_, hsp, fun hsorted => hsm (StdSet.sorted_insert _ _ hsorted)⟩
        · intro t
          rw [hp t]
          constructor
          · rintro (ht | ⟨ht, h1, h2⟩)
            · exact Or.inl ht
            · exact Or.inr ⟨List.mem_cons_of_mem _ ht, h1, h2⟩
          · rintro (ht | ⟨ht, h1, h2⟩)
            · exact Or.inl ht
            · rcases List.mem_cons.mp ht with ht | ht
              · subst ht
                exact absurd rfl h1
              · exact Or.inr ⟨ht, h1, h2⟩
        · intro t
          rw [hm t, StdSet.mem_insert]
          constructor
          · rintro ((ht | ht) | ⟨ht, h2⟩)
            · subst ht
              exact Or.inr ⟨List.mem_cons_self _ _, by simpa using hstop⟩
            · exact Or.inl ht
            · exact Or.inr ⟨List.mem_cons_of_mem _ ht, h2⟩
          · rintro (ht | ⟨ht, h2⟩)
            · exact Or.inl (Or.inr ht)
            · rcases List.mem_cons.mp ht with ht | ht
              · simp only [List.cons.injEq, true_and] at ht
                exact Or.inl (Or.inl ht)
              · exact Or.inr ⟨ht, h2⟩
    · rw [ParseQuery_loop_cons_plus s word rest result hword hhead hgood] at h
      obtain ⟨hp, hm, hsp, hsm⟩ := ih hrest _ h
      have hnotminus : ∀ t : Str, (45 :: t) ≠ word := by
        intro t ht
        subst ht
        exact hhead rfl
      by_cases hstop : IsStopWord s word = true
      · rw [if_pos hstop] at h
        obtain ⟨hp, hm, hsp, hsm⟩ := ih hrest _ h
        refine ⟨?_, ?_, hsp, hsm⟩
        · intro t
          rw [hp t]
          constructor
          · rintro (ht | ⟨ht, h1, h2⟩)
            · exact Or.inl ht
            · exact Or.inr ⟨List.mem_cons_of_mem _ ht, h1, h2⟩
          · rintro (ht | ⟨ht, h1, h2⟩)
            · exact Or.inl ht
            · rcases List.mem_cons.mp ht with ht | ht
              · subst ht
                rw [hstop] at h2
                exact absurd h2 (by simp)
              · exact Or.inr ⟨ht, h1, h2⟩
        · intro t
          rw [hm t]
          constructor
          · rintro (ht | ⟨ht, h2⟩)
            · exact Or.inl ht
            · exact Or.inr ⟨List.mem_cons_of_mem _ ht, h2⟩
          · rintro (ht | ⟨ht, h2⟩)
            · exact Or.inl ht
            · rcases List.mem_cons.mp ht with ht | ht
              · exact absurd ht (hnotminus t)
              · exact Or.inr ⟨ht, h2⟩
      · rw [if_neg hstop] at h
        obtain ⟨hp, hm, hsp, hsm⟩ := ih hrest _ h
        dsimp only at hp hm hsp hsm
        refine ⟨?_, ?_, fun hsorted => hsp (StdSet.sorted_insert _ _ hsorted), hsm⟩
        · intro t
          rw [hp t, StdSet.mem_insert]
          constructor
          · rintro ((ht | ht) | ⟨ht, h1, h2⟩)
            · subst ht
              exact Or.inr ⟨List.mem_cons_self _ _, hhead, by simpa using hstop⟩
            · exact Or.inl ht
            · exact Or.inr ⟨List.mem_cons_of_mem _ ht, h1, h2⟩
          · rintro (ht | ⟨ht, h1, h2⟩)
            · exact Or.inl (Or.inr ht)
            · rcases List.mem_cons.mp ht with ht | ht
              · exact Or.inl (Or.inl ht)
              · exact Or.inr ⟨ht, h1, h2⟩
        · intro t
          rw [hm t]
          constructor
          · rintro (ht | ⟨ht, h2⟩)
            · exact Or.inl ht
            · exact Or.inr ⟨List.mem_cons_of_mem _ ht, h2⟩
          · rintro (ht | ⟨ht, h2⟩)
            · exact Or.inl ht
            · rcases List.mem_cons.mp ht with ht | ht
              · exact absurd ht (hnotminus t)
              · exact Or.inr ⟨ht, h2⟩


/-- C8 (amended): `ParseQuery` does not tell a token of the form "--term" from a
token with a control character: for every query in which some token begins with
"--" or has a byte in `0x00..0x1F`, and no token is a bare "-", it throws one and
the same error value, `std::invalid_argument` with the message
"один или более минусов". -/
theorem C8_ParseQuery_error_value (isSpace : Byte → Bool) (s : SearchServer) (text : Str)
    (hbare : ∀ t ∈ SplitIntoWords isSpace text, t ≠ [45])
    (hbad : ∃ t ∈ SplitIntoWords isSpace text,
      (∃ rest, t = 45 :: 45 :: rest) ∨ ∃ c ∈ t, c.val < 32) :
    ParseQuery isSpace s text = .error (.invalid_argument "один или более минусов") := by
  have hfail : ∃ e, ParseQuery isSpace s text = .error e := by
    obtain ⟨t, ht, hbad⟩ := hbad
    unfold ParseQuery
    rw [ParseQuery_loop_error_iff]
    exact ⟨t, ht, _, ParseQueryWord_malformed s t (Or.inr hbad)
      (SplitIntoWords_ne_nil isSpace text t ht)⟩
  obtain ⟨e, he⟩ := hfail
  obtain ⟨t, ht, hword⟩ := ParseQuery_loop_error_source s _ _ e he
  have hne := SplitIntoWords_ne_nil isSpace text t ht
  have hkind : (∃ rest, t = 45 :: 45 :: rest) ∨ ∃ c ∈ t, c.val < 32 := by
    rcases (ParseQueryWord_error_iff s t hne).mp ⟨e, hword⟩ with h | h
    · exact absurd h (hbare t ht)
    · exact h
  rw [ParseQueryWord_malformed s t (Or.inr hkind) hne] at hword
  rw [he, ← Except.error.inj hword]

/-- C8 applied to the query "cat --dog" on the example server. -/
theorem C8_ParseQuery_error_value_witness :
    ParseQuery spaceOnly exampleServer (ascii "cat --dog") =
      .error (.invalid_argument "один или более минусов") :=
  C8_ParseQuery_error_value spaceOnly exampleServer (ascii "cat --dog") (by decide)
    ⟨ascii "--dog", by decide, Or.inl ⟨ascii "dog", by decide⟩⟩

/-- C8 as stated fails: the query "--cat" and the query made of the one token
`c 0x01 t` are rejected with the same error value, so the double negation and the
control character cannot be told apart from it. -/
theorem C8_ParseQuery_error_value_counterexample :
    ParseQuery spaceOnly (SearchServer.empty []) (ascii "--cat") =
        .error (.invalid_argument "один или более минусов") ∧
      ParseQuery spaceOnly (SearchServer.empty []) [99, 1, 116] =
        .error (.invalid_argument "один или более минусов") ∧
      ParseQuery spaceOnly (SearchServer.empty []) (ascii "--cat") =
        ParseQuery spaceOnly (SearchServer.empty []) [99, 1, 116] := by
  decide

/-- C9: when `ParseQuery` returns a query, no stop word is in its plus-word set
and none is in its minus-word set; and the round of the parser on a well-formed
token "-w" with `w` a stop word leaves both sets as they are. -/
theorem C9_ParseQuery_no_stop_words (isSpace : Byte → Bool) (s : SearchServer) (text : Str)
    (q : Query) (h : ParseQuery isSpace s text = .ok q) :
    (∀ w ∈ q.plus_words, IsStopWord s w = false) ∧
      (∀ w ∈ q.minus_words, IsStopWord s w = false) ∧
      ∀ (w : Str) (rest : List Str) (result : Query), IsStopWord s w = true →
        ¬ ((45 :: w : Str) = [45] ∨ (∃ r, (45 :: w : Str) = 45 :: 45 :: r) ∨
          ∃ c ∈ (45 :: w : Str), c.val < 32) →
        ParseQuery.loop s ((45 :: w) :: rest) result = ParseQuery.loop s rest result := by
  obtain ⟨hp, hm, _, _⟩ := ParseQuery_loop_spec s (SplitIntoWords isSpace text)
    (SplitIntoWords_ne_nil isSpace text) _ q h
  refine ⟨?_, ?_, ?_⟩
  · intro w hw
    rcases (hp w).mp hw with hw | ⟨_, _, hstop⟩
    · simp at hw
    · exact hstop
  · intro w hw
    rcases (hm w).mp hw with hw | ⟨_, hstop⟩
    · simp at hw
    · exact hstop
  · intro w rest result hstop hgood
    rw [ParseQuery_loop_cons_minus s w rest result hgood, if_pos hstop]

/-- C9 applied to the example server (stop words "and", "in") and the query
"cat and -in -dog": neither "and" nor "in" is in a set of the result. -/
theorem C9_ParseQuery_no_stop_words_witness :
    ParseQuery spaceOnly exampleServer (ascii "cat and -in -dog") =
        .ok { plus_words := [ascii "cat"], minus_words := [ascii "dog"] } ∧
      (∀ w ∈ [ascii "cat"], IsStopWord exampleServer w = false) ∧
      (∀ w ∈ [ascii "dog"], IsStopWord exampleServer w = false) :=
  ⟨by decide,
    (C9_ParseQuery_no_stop_words spaceOnly exampleServer (ascii "cat and -in -dog")
      { plus_words := [ascii "cat"], minus_words := [ascii "dog"] } (by decide)).1,
    (C9_ParseQuery_no_stop_words spaceOnly exampleServer (ascii "cat and -in -dog")
      { plus_words := [ascii "cat"], minus_words := [ascii "dog"] } (by decide)).2.1⟩

/-- C10: when `ParseQuery` returns a query, its plus-word set holds exactly the
tokens that do not begin with "-" and are not stop words, and its minus-word set
holds exactly the strings `t` such that "-t" is a token and `t` is not a stop
word.  Both are sets: each term occurs once, in ascending order, so that two
queries with the same tokens, in whatever order and number, give the same result.
A term that is a token both as "t" and as "-t" is in both sets. -/
theorem C10_ParseQuery_sets (isSpace : Byte → Bool) (s : SearchServer) (text : Str)
    (q : Query) (h : ParseQuery isSpace s text = .ok q) :
    (∀ t, t ∈ q.plus_words ↔
        t ∈ SplitIntoWords isSpace text ∧ t.head? ≠ some 45 ∧ IsStopWord s t = false) ∧
      (∀ t, t ∈ q.minus_words ↔
        (45 :: t) ∈ SplitIntoWords isSpace text ∧ IsStopWord s t = false) ∧
      q.plus_words.Nodup ∧ q.minus_words.Nodup ∧
      q.plus_words.Sorted (· < ·) ∧ q.minus_words.Sorted (· < ·) ∧
      (∀ (text2 : Str) (q2 : Query), ParseQuery isSpace s text2 = .ok q2 →
        (∀ t, t ∈ SplitIntoWords isSpace text2 ↔ t ∈ SplitIntoWords isSpace text) → q2 = q) ∧
      (∀ t, t ∈ SplitIntoWords isSpace text → (45 :: t) ∈ SplitIntoWords isSpace text →
        t.head? ≠ some 45 → IsStopWord s t = false → t ∈ q.plus_words ∧ t ∈ q.minus_words) := by
  obtain ⟨hp, hm, hsp, hsm⟩ := ParseQuery_loop_spec s (SplitIntoWords isSpace text)
    (SplitIntoWords_ne_nil isSpace text) _ q h
  simp only [List.not_mem_nil, false_or, List.sorted_nil, forall_true_left] at hp hm hsp hsm
  refine ⟨hp, hm, hsp.nodup, hsm.nodup, hsp, hsm, ?_, ?_⟩
  · intro text2 q2 h2 hsame
    obtain ⟨hp2, hm2, hsp2, hsm2⟩ := ParseQuery_loop_spec s (SplitIntoWords isSpace text2)
      (SplitIntoWords_ne_nil isSpace text2) _ q2 h2
    simp only [List.not_mem_nil, false_or, List.sorted_nil, forall_true_left] at hp2 hm2 hsp2 hsm2
    have hplus : q2.plus_words = q.plus_words :=
      StdSet.eq_of_sorted_of_mem_iff _ _ hsp2 hsp (fun t => by rw [hp2 t, hp t, hsame t])
    have hminus : q2.minus_words = q.minus_words :=
      StdSet.eq_of_sorted_of_mem_iff _ _ hsm2 hsm (fun t => by rw [hm2 t, hm t, hsame (45 :: t)])
    cases q
    cases q2
    simp only at hplus hminus
    rw [hplus, hminus]
  · intro t ht hminus hhead hstop
    exact ⟨(hp t).mpr ⟨ht, hhead, hstop⟩, (hm t).mpr ⟨hminus, hstop⟩⟩

/-- C10 applied to the example server and the query "dog cat -cat dog and": "dog"
is kept once, "cat" is in both sets, the stop word "and" in neither. -/
theorem C10_ParseQuery_sets_witness :
    ParseQuery spaceOnly exampleServer (ascii "dog cat -cat dog and") =
        .ok { plus_words := [ascii "cat", ascii "dog"], minus_words := [ascii "cat"] } ∧
      ∀ t, t ∈ [ascii "cat", ascii "dog"] ↔
        t ∈ SplitIntoWords spaceOnly (ascii "dog cat -cat dog and") ∧ t.head? ≠ some 45 ∧
          IsStopWord exampleServer t = false :=
  ⟨by decide,
    (C10_ParseQuery_sets spaceOnly exampleServer (ascii "dog cat -cat dog and")
      { plus_words := [ascii "cat", ascii "dog"], minus_words := [ascii "cat"] }
      (by decide)).1⟩


/-! ## The matcher -/

theorem isIndexed_of_find_none (index : List (Str × List (Int × Rat))) (document_id : Int)
    (word : Str) (h : StdMap.find index word = none) :
    isIndexed index document_id word = false := by
  simp [isIndexed, storedFrequency, h]

theorem isIndexed_of_find_some (index : List (Str × List (Int × Rat))) (document_id : Int)
    (word : Str) (freqs : List (Int × Rat)) (h : StdMap.find index word = some freqs) :
    isIndexed index document_id word = (StdMap.find freqs document_id).isSome := by
  simp [isIndexed, storedFrequency, h]

theorem count_ne_zero_iff_isSome {K : Type} {V : Type} [LinearOrder K] (m : List (K × V))
    (k : K) : StdMap.count m k ≠ 0 ↔ (StdMap.find m k).isSome = true := by
  unfold StdMap.count
  cases StdMap.find m k <;> simp

/-- The first loop of `MatchDocument` appends the words that are indexed for the
document, in the order of the plus-words, and never throws. -/
theorem plusLoop_eq (index : List (Str × List (Int × Rat))) (document_id : Int)
    (words matched_words : List Str) :
    MatchDocument.plusLoop index document_id words matched_words =
      .ok (matched_words ++ words.filter (isIndexed index document_id)) := by
  induction words generalizing matched_words with
  | nil => simp [MatchDocument.plusLoop]
  | cons word rest ih =>
    cases hfind : StdMap.find index word with
    | none =>
      have hcount : StdMap.count index word = 0 := (StdMap.count_eq_zero_iff _ _).mpr hfind
      simp [MatchDocument.plusLoop, hcount, ih, isIndexed_of_find_none _ _ _ hfind]
    | some freqs =>
      have hcount : StdMap.count index word ≠ 0 := by
        rw [count_ne_zero_iff_isSome, hfind]
        rfl
      have hidx := isIndexed_of_find_some index document_id word freqs hfind
      by_cases hdoc : StdMap.count freqs document_id ≠ 0
      · have hsome := (count_ne_zero_iff_isSome _ _).mp hdoc
        simp [MatchDocument.plusLoop, hcount, StdMap.at_, hfind, hdoc, ih, hidx, hsome]
      · have hnone : (StdMap.find freqs document_id).isSome = false := by
          rw [← Bool.not_eq_true, ← count_ne_zero_iff_isSome]
          exact hdoc
        simp only [ne_eq, not_not] at hdoc
        simp [MatchDocument.plusLoop, hcount, StdMap.at_, hfind, hdoc, ih, hidx, hnone]

/-- The second loop of `MatchDocument` clears the matched words when some
minus-word is indexed for the document, leaves them otherwise, and never throws. -/
theorem minusLoop_eq (index : List (Str × List (Int × Rat))) (document_id : Int)
    (words matched_words : List Str) :
    MatchDocument.minusLoop index document_id words matched_words =
      .ok (if words.any (isIndexed index document_id) = true then [] else matched_words) := by
  induction words with
  | nil => simp [MatchDocument.minusLoop]
  | cons word rest ih =>
    cases hfind : StdMap.find index word with
    | none =>
      have hcount : StdMap.count index word = 0 := (StdMap.count_eq_zero_iff _ _).mpr hfind
      simp [MatchDocument.minusLoop, hcount, ih, isIndexed_of_find_none _ _ _ hfind]
    | some freqs =>
      have hcount : StdMap.count index word ≠ 0 := by
        rw [count_ne_zero_iff_isSome, hfind]
        rfl
      have hidx := isIndexed_of_find_some index document_id word freqs hfind
      by_cases hdoc : StdMap.count freqs document_id ≠ 0
      · have hsome := (count_ne_zero_iff_isSome _ _).mp hdoc
        simp [MatchDocument.minusLoop, hcount, StdMap.at_, hfind, hdoc, hidx, hsome]
      · have hnone : (StdMap.find freqs document_id).isSome = false := by
          rw [← Bool.not_eq_true, ← count_ne_zero_iff_isSome]
          exact hdoc
        simp only [ne_eq, not_not] at hdoc
        simp [MatchDocument.minusLoop, hcount, StdMap.at_, hfind, hdoc, ih, hidx, hnone]

/-- The result of `MatchDocument` in closed form. -/
theorem MatchDocument_eq (isSpace : Byte → Bool) (s : SearchServer) (raw_query : Str)
    (document_id : Int) :
    MatchDocument isSpace s raw_query document_id =
      match ParseQuery isSpace s raw_query with
      | .error e => .error e
      | .ok query =>
        match StdMap.find s.documents_ document_id with
        | none => .error .out_of_range
        | some data =>
          .ok (if query.minus_words.any (isIndexed s.word_to_document_freqs_ document_id) = true
                then []
               else query.plus_words.filter (isIndexed s.word_to_document_freqs_ document_id),
               data.status) := by
  unfold MatchDocument
  cases ParseQuery isSpace s raw_query with
  | error e => rfl
  | ok query =>
    simp only [plusLoop_eq, minusLoop_eq, List.nil_append, StdMap.at_]
    cases StdMap.find s.documents_ document_id <;> rfl

/-- Whatever `ParseQuery` throws is `std::invalid_argument` with the message of the
second check of `ParseQueryWord`. -/
theorem ParseQuery_error_eq (isSpace : Byte → Bool) (s : SearchServer) (text : Str)
    (e : Exception) (h : ParseQuery isSpace s text = .error e) :
    e = .invalid_argument "один или более минусов" := by
  obtain ⟨t, ht, hword⟩ := ParseQuery_loop_error_source s _ _ e h
  have hne := SplitIntoWords_ne_nil isSpace text t ht
  have hmal := (ParseQueryWord_error_iff s t hne).mp ⟨e, hword⟩
  rw [ParseQueryWord_malformed s t hmal hne] at hword
  exact (Except.error.inj hword).symm

theorem ParseQuery_error_iff (isSpace : Byte → Bool) (s : SearchServer) (text : Str) :
    (∃ e, ParseQuery isSpace s text = .error e) ↔
      ∃ t ∈ SplitIntoWords isSpace text,
        t = [45] ∨ (∃ rest, t = 45 :: 45 :: rest) ∨ ∃ c ∈ t, c.val < 32 := by
  unfold ParseQuery
  rw [ParseQuery_loop_error_iff]
  constructor
  · rintro ⟨t, ht, he⟩
    exact ⟨t, ht, (ParseQueryWord_error_iff s t (SplitIntoWords_ne_nil isSpace text t ht)).mp he⟩
  · rintro ⟨t, ht, hbad⟩
    exact ⟨t, ht,
      (ParseQueryWord_error_iff s t (SplitIntoWords_ne_nil isSpace text t ht)).mpr hbad⟩

/-- The sets of a parsed query are in ascending order. -/
theorem ParseQuery_sorted (isSpace : Byte → Bool) (s : SearchServer) (text : Str) (q : Query)
    (h : ParseQuery isSpace s text = .ok q) :
    q.plus_words.Sorted (· < ·) ∧ q.minus_words.Sorted (· < ·) := by
  obtain ⟨_, _, hsp, hsm⟩ := ParseQuery_loop_spec s (SplitIntoWords isSpace text)
    (SplitIntoWords_ne_nil isSpace text) _ q h
  exact ⟨hsp (by simp), hsm (by simp)⟩

/-- The result of `ParseQuery`, or its failure, depends only on which tokens the
text has, not on their order or number. -/
theorem ParseQuery_eq_of_same_tokens (isSpace : Byte → Bool) (s : SearchServer)
    (text text2 : Str)
    (hsame : ∀ t, t ∈ SplitIntoWords isSpace text2 ↔ t ∈ SplitIntoWords isSpace text) :
    ParseQuery isSpace s text2 = ParseQuery isSpace s text := by
  have hbad : (∃ e, ParseQuery isSpace s text2 = .error e) ↔
      ∃ e, ParseQuery isSpace s text = .error e := by
    rw [ParseQuery_error_iff, ParseQuery_error_iff]
    constructor
    · rintro ⟨t, ht, h⟩
      exact ⟨t, (hsame t).mp ht, h⟩
    · rintro ⟨t, ht, h⟩
      exact ⟨t, (hsame t).mpr ht, h⟩
  cases h1 : ParseQuery isSpace s text with
  | error e =>
    obtain ⟨e2, h2⟩ := hbad.mpr ⟨e, h1⟩
    rw [h2, ParseQuery_error_eq isSpace s text e h1, ParseQuery_error_eq isSpace s text2 e2 h2]
  | ok q =>
    cases h2 : ParseQuery isSpace s text2 with
    | error e2 =>
      obtain ⟨e, he⟩ := hbad.mp ⟨e2, h2⟩
      rw [h1] at he
      exact absurd he (by simp)
    | ok q2 =>
      obtain ⟨hp, hm, _, _⟩ := ParseQuery_loop_spec s (SplitIntoWords isSpace text)
        (SplitIntoWords_ne_nil isSpace text) _ q h1
      obtain ⟨hp2, hm2, _, _⟩ := ParseQuery_loop_spec s (SplitIntoWords isSpace text2)
        (SplitIntoWords_ne_nil isSpace text2) _ q2 h2
      simp only [List.not_mem_nil, false_or] at hp hm hp2 hm2
      obtain ⟨hsp, hsm⟩ := ParseQuery_sorted isSpace s text q h1
      obtain ⟨hsp2, hsm2⟩ := ParseQuery_sorted isSpace s text2 q2 h2
      have hplus : q2.plus_words = q.plus_words :=
        StdSet.eq_of_sorted_of_mem_iff _ _ hsp2 hsp (fun t => by rw [hp2 t, hp t, hsame t])
      have hminus : q2.minus_words = q.minus_words :=
        StdSet.eq_of_sorted_of_mem_iff _ _ hsm2 hsm
          (fun t => by rw [hm2 t, hm t, hsame (45 :: t)])
      cases q
      cases q2
      simp only at hplus hminus
      rw [hplus, hminus]

theorem isIndexed_eq_true_iff (index : List (Str × List (Int × Rat))) (document_id : Int)
    (word : Str) :
    isIndexed index document_id word = true ↔ storedFrequency index word document_id ≠ none := by
  unfold isIndexed
  cases storedFrequency index word document_id <;> simp

/-- C11: whenever the query parses, `d` is a stored document and some minus-word
of the query is indexed for `d`, `MatchDocument` returns the empty term list with
the status of `d`, whatever plus-words `d` contains. -/
theorem C11_MatchDocument_minus_word (isSpace : Byte → Bool) (s : SearchServer)
    (raw_query : Str) (document_id : Int) (query : Query) (data : DocumentData)
    (hq : ParseQuery isSpace s raw_query = .ok query)
    (hd : StdMap.find s.documents_ document_id = some data)
    (hminus : ∃ m ∈ query.minus_words,
      storedFrequency s.word_to_document_freqs_ m document_id ≠ none) :
    MatchDocument isSpace s raw_query document_id = .ok ([], data.status) := by
  have hany : query.minus_words.any (isIndexed s.word_to_document_freqs_ document_id) = true := by
    obtain ⟨m, hm, hidx⟩ := hminus
    exact List.any_eq_true.mpr ⟨m, hm, (isIndexed_eq_true_iff _ _ _).mpr hidx⟩
  rw [MatchDocument_eq, hq]
  simp only [hd, hany, if_true]

/-- C11 applied to the example of the specification: document 1 is "fluffy well
groomed cat", and the query "fluffy cat -groomed" matches no term of it. -/
theorem C11_MatchDocument_minus_word_witness :
    MatchDocument spaceOnly specExampleServer (ascii "fluffy cat -groomed") 1 =
      .ok ([], DocumentStatus.ACTUAL) :=
  C11_MatchDocument_minus_word spaceOnly specExampleServer (ascii "fluffy cat -groomed") 1
    { plus_words := [ascii "cat", ascii "fluffy"], minus_words := [ascii "groomed"] }
    { rating := 2, status := DocumentStatus.ACTUAL } (by decide) (by decide)
    ⟨ascii "groomed", by decide, by decide⟩

/-- C12: whenever the query parses, `d` is a stored document and no minus-word of
the query is indexed for `d`, the term list `MatchDocument` returns holds exactly
the plus-words of the query that are indexed for `d`, each once, in strictly
ascending lexicographic order of their bytes; a query with the same tokens in
another order or number gives the same result. -/
theorem C12_MatchDocument_plus_words (isSpace : Byte → Bool) (s : SearchServer)
    (raw_query : Str) (document_id : Int) (query : Query) (data : DocumentData)
    (hq : ParseQuery isSpace s raw_query = .ok query)
    (hd : StdMap.find s.documents_ document_id = some data)
    (hminus : ∀ m ∈ query.minus_words,
      storedFrequency s.word_to_document_freqs_ m document_id = none) :
    ∃ terms : List Str,
      MatchDocument isSpace s raw_query document_id = .ok (terms, data.status) ∧
      (∀ w, w ∈ terms ↔
        w ∈ query.plus_words ∧ storedFrequency s.word_to_document_freqs_ w document_id ≠ none) ∧
      terms.Nodup ∧
      terms.Sorted (List.Lex (fun a b : Byte => a.val < b.val)) ∧
      ∀ raw_query2 : Str,
        (∀ t, t ∈ SplitIntoWords isSpace raw_query2 ↔ t ∈ SplitIntoWords isSpace raw_query) →
        MatchDocument isSpace s raw_query2 document_id = .ok (terms, data.status) := by
  have hany : ¬ query.minus_words.any (isIndexed s.word_to_document_freqs_ document_id) = true := by
    intro h
    obtain ⟨m, hm, hidx⟩ := List.any_eq_true.mp h
    exact (isIndexed_eq_true_iff _ _ _).mp hidx (hminus m hm)
  have hres : MatchDocument isSpace s raw_query document_id =
      .ok (query.plus_words.filter (isIndexed s.word_to_document_freqs_ document_id),
        data.status) := by
    rw [MatchDocument_eq, hq]
    simp only [hd, if_neg hany]
  have hsorted := (ParseQuery_sorted isSpace s raw_query query hq).1
  have hfiltered : (query.plus_words.filter
      (isIndexed s.word_to_document_freqs_ document_id)).Sorted (· < ·) :=
    hsorted.sublist (List.filter_sublist _)
  refine ⟨_, hres, ?_, hfiltered.nodup, hfiltered, ?_⟩
  · intro w
    rw [List.mem_filter, isIndexed_eq_true_iff]
  · intro raw_query2 hsame
    have hparse := ParseQuery_eq_of_same_tokens isSpace s raw_query raw_query2 hsame
    rw [MatchDocument_eq, hparse, hq]
    simp only [hd, if_neg hany]

/-- C12 applied to the example of the specification: document 0 is "white cat
fluffy tail", and the query "fluffy cat -groomed" matches "cat" and "fluffy". -/
theorem C12_MatchDocument_plus_words_witness :
    ∃ terms : List Str,
      MatchDocument spaceOnly specExampleServer (ascii "fluffy cat -groomed") 0 =
        .ok (terms, DocumentStatus.ACTUAL) ∧
      (∀ w, w ∈ terms ↔
        w ∈ [ascii "cat", ascii "fluffy"] ∧
          storedFrequency specExampleServer.word_to_document_freqs_ w 0 ≠ none) ∧
      terms.Nodup ∧
      terms.Sorted (List.Lex (fun a b : Byte => a.val < b.val)) ∧
      ∀ raw_query2 : Str,
        (∀ t, t ∈ SplitIntoWords spaceOnly raw_query2 ↔
          t ∈ SplitIntoWords spaceOnly (ascii "fluffy cat -groomed")) →
        MatchDocument spaceOnly specExampleServer raw_query2 0 =
          .ok (terms, DocumentStatus.ACTUAL) :=
  C12_MatchDocument_plus_words spaceOnly specExampleServer (ascii "fluffy cat -groomed") 0
    { plus_words := [ascii "cat", ascii "fluffy"], minus_words := [ascii "groomed"] }
    { rating := 5, status := DocumentStatus.ACTUAL } (by decide) (by decide) (by decide)

/-! ## Sequences of calls -/

/-- The store after one call of `AddDocument`: a call that completes normally
adds the entry of its id and touches no other. -/
theorem find_documents_AddDocument_other (isSpace : Byte → Bool) (s : SearchServer)
    (document_id : Int) (document : Str) (status : DocumentStatus) (ratings : List Int)
    (d : Int)
    (h : d ≠ document_id ∨
      (AddDocument isSpace s document_id document status ratings).1 ≠ .ok ()) :
    StdMap.find (AddDocument isSpace s document_id document status ratings).2.documents_ d =
      StdMap.find s.documents_ d := by
  cases hres : (AddDocument isSpace s document_id document status ratings).1 with
  | error e =>
    rw [AddDocument_error_state isSpace s document_id document status ratings e hres]
  | ok u =>
    obtain ⟨h1, h2, h3⟩ :=
      AddDocument_ok_conditions isSpace s document_id document status ratings hres
    rw [AddDocument_of_valid isSpace s document_id document status ratings h1 h2 h3]
    rcases h with h | h
    · simp only [StdMap.find_emplace, if_neg h]
    · exact absurd hres h

/-- An id that is stored cannot be ingested again. -/
theorem AddDocument_ok_ne_stored (isSpace : Byte → Bool) (s : SearchServer)
    (document_id : Int) (document : Str) (status : DocumentStatus) (ratings : List Int)
    (d : Int) (hd : StdMap.find s.documents_ d ≠ none)
    (hok : (AddDocument isSpace s document_id document status ratings).1 = .ok ()) :
    d ≠ document_id := by
  intro heq
  subst heq
  exact hd ((StdMap.count_eq_zero_iff _ _).mp
    (AddDocument_ok_conditions isSpace s d document status ratings hok).2.1)

/-- An entry of the store stays what it is through every later call. -/
theorem find_documents_runCalls_stored (isSpace : Byte → Bool) (s : SearchServer)
    (calls : List AddDocumentCall) (d : Int) (hd : StdMap.find s.documents_ d ≠ none) :
    StdMap.find (runCalls isSpace s calls).documents_ d = StdMap.find s.documents_ d := by
  induction calls generalizing s with
  | nil => rfl
  | cons c rest ih =>
    have hstep : StdMap.find
        (AddDocument isSpace s c.document_id c.document c.status c.ratings).2.documents_ d =
        StdMap.find s.documents_ d := by
      apply find_documents_AddDocument_other
      by_cases hok : (AddDocument isSpace s c.document_id c.document c.status c.ratings).1 = .ok ()
      · exact Or.inl (AddDocument_ok_ne_stored isSpace s _ _ _ _ d hd hok)
      · exact Or.inr hok
    simp only [runCalls]
    rw [ih _ (by rw [hstep]; exact hd), hstep]

/-- An id that no successful call of the sequence has is stored after the
sequence exactly when it was stored before. -/
theorem find_documents_runCalls_other (isSpace : Byte → Bool) (s : SearchServer)
    (calls : List AddDocumentCall) (d : Int)
    (hd : d ∉ (successfulCalls isSpace s calls).map (fun c => c.document_id)) :
    StdMap.find (runCalls isSpace s calls).documents_ d = StdMap.find s.documents_ d := by
  induction calls generalizing s with
  | nil => rfl
  | cons c rest ih =>
    simp only [runCalls]
    by_cases hok : (AddDocument isSpace s c.document_id c.document c.status c.ratings).1 = .ok ()
    · simp only [successfulCalls, hok, if_true, List.map_cons, List.mem_cons, not_or] at hd
      rw [ih _ hd.2]
      exact find_documents_AddDocument_other isSpace s _ _ _ _ d (Or.inl hd.1)
    · simp only [successfulCalls, hok, if_false] at hd
      rw [ih _ hd]
      exact find_documents_AddDocument_other isSpace s _ _ _ _ d (Or.inr hok)

/-- After the sequence the store holds, for every call that completed normally,
the rating computed from its ratings and the status it passed. -/
theorem find_documents_runCalls_successful (isSpace : Byte → Bool) (s : SearchServer)
    (calls : List AddDocumentCall) (c : AddDocumentCall)
    (hc : c ∈ successfulCalls isSpace s calls) :
    StdMap.find (runCalls isSpace s calls).documents_ c.document_id =
      some { rating := ComputeAverageRating c.ratings, status := c.status } := by
  induction calls generalizing s with
  | nil => simp [successfulCalls] at hc
  | cons c2 rest ih =>
    simp only [runCalls]
    by_cases hok :
        (AddDocument isSpace s c2.document_id c2.document c2.status c2.ratings).1 = .ok ()
    · simp only [successfulCalls, hok, if_true, List.mem_cons] at hc
      rcases hc with hc | hc
      · subst hc
        have hnow := find_documents_AddDocument isSpace s c.document_id c.document c.status
          c.ratings hok
        rw [find_documents_runCalls_stored isSpace _ rest c.document_id
          (by rw [hnow]; simp), hnow]
      · exact ih _ hc
    · simp only [successfulCalls, hok, if_false] at hc
      exact ih _ hc

/-- The insertion-order list after the sequence: the ids of the calls that
completed normally are appended in their order. -/
theorem documents_index_runCalls (isSpace : Byte → Bool) (s : SearchServer)
    (calls : List AddDocumentCall) :
    (runCalls isSpace s calls).documents_index_ =
      s.documents_index_ ++ (successfulCalls isSpace s calls).map (fun c => c.document_id) := by
  induction calls generalizing s with
  | nil => simp [runCalls, successfulCalls]
  | cons c rest ih =>
    simp only [runCalls]
    rw [ih]
    cases hres : (AddDocument isSpace s c.document_id c.document c.status c.ratings).1 with
    | error e =>
      rw [AddDocument_error_state isSpace s _ _ _ _ e hres]
      simp only [successfulCalls, hres, reduceCtorEq, if_false]
      rw [AddDocument_error_state isSpace s _ _ _ _ e hres]
    | ok u =>
      obtain ⟨h1, h2, h3⟩ := AddDocument_ok_conditions isSpace s _ _ _ _ hres
      simp only [successfulCalls, hres, if_true, List.map_cons]
      rw [AddDocument_of_valid isSpace s _ _ _ _ h1 h2 h3]
      simp

theorem runCalls_reachable (isSpace : Byte → Bool) (s : SearchServer)
    (h : Reachable isSpace s) (calls : List AddDocumentCall) :
    Reachable isSpace (runCalls isSpace s calls) := by
  induction calls generalizing s with
  | nil => exact h
  | cons c rest ih => exact ih _ (Reachable.add s h _ _ _ _)

theorem runCalls_append (isSpace : Byte → Bool) (s : SearchServer)
    (calls more : List AddDocumentCall) :
    runCalls isSpace s (calls ++ more) = runCalls isSpace (runCalls isSpace s calls) more := by
  induction calls generalizing s with
  | nil => rfl
  | cons c rest ih =>
    rw [List.cons_append]
    simp only [runCalls]
    exact ih _

/-- A call of `AddDocument` never changes the stop words. -/
theorem stop_words_AddDocument (isSpace : Byte → Bool) (s : SearchServer)
    (document_id : Int) (document : Str) (status : DocumentStatus) (ratings : List Int) :
    (AddDocument isSpace s document_id document status ratings).2.stop_words_ =
      s.stop_words_ := by
  cases hres : (AddDocument isSpace s document_id document status ratings).1 with
  | error e => rw [AddDocument_error_state isSpace s _ _ _ _ e hres]
  | ok u =>
    obtain ⟨h1, h2, h3⟩ := AddDocument_ok_conditions isSpace s _ _ _ _ hres
    rw [AddDocument_of_valid isSpace s _ _ _ _ h1 h2 h3]

theorem stop_words_runCalls (isSpace : Byte → Bool) (s : SearchServer)
    (calls : List AddDocumentCall) :
    (runCalls isSpace s calls).stop_words_ = s.stop_words_ := by
  induction calls generalizing s with
  | nil => rfl
  | cons c rest ih =>
    simp only [runCalls]
    rw [ih, stop_words_AddDocument]

/-- C13: after any sequence of `AddDocument` calls on a fresh server and for any
query that parses, `MatchDocument(query, id)` throws if and only if no call of the
sequence ingested `id`, and what it throws then is `std::out_of_range`; for every
call that did complete normally, `MatchDocument` on its id returns the status that
call passed, with whatever term list. -/
theorem C13_MatchDocument_status (isSpace : Byte → Bool) (stop_words : List Str)
    (calls : List AddDocumentCall) (raw_query : Str) (query : Query)
    (hq : ParseQuery isSpace (runCalls isSpace (SearchServer.empty stop_words) calls)
      raw_query = .ok query)
    (document_id : Int) :
    ((∃ e, MatchDocument isSpace (runCalls isSpace (SearchServer.empty stop_words) calls)
        raw_query document_id = .error e) ↔
      document_id ∉ (successfulCalls isSpace (SearchServer.empty stop_words) calls).map
        (fun c => c.document_id)) ∧
    (∀ e, MatchDocument isSpace (runCalls isSpace (SearchServer.empty stop_words) calls)
        raw_query document_id = .error e → e = .out_of_range) ∧
    (∀ c ∈ successfulCalls isSpace (SearchServer.empty stop_words) calls,
      ∃ terms, MatchDocument isSpace (runCalls isSpace (SearchServer.empty stop_words) calls)
        raw_query c.document_id = .ok (terms, c.status)) := by
  refine ⟨?_, ?_, ?_⟩
  · rw [MatchDocument_eq, hq]
    constructor
    · rintro ⟨e, he⟩ hmem
      obtain ⟨c, hc, hid⟩ := List.mem_map.mp hmem
      have hstored := find_documents_runCalls_successful isSpace _ calls c hc
      rw [hid] at hstored
      simp [hstored] at he
    · intro hnot
      have hnone : StdMap.find
          (runCalls isSpace (SearchServer.empty stop_words) calls).documents_ document_id =
          none := by
        rw [find_documents_runCalls_other isSpace _ calls document_id hnot]
        rfl
      exact ⟨.out_of_range, by simp only [hnone]⟩
  · intro e he
    rw [MatchDocument_eq, hq] at he
    cases hfind : StdMap.find
        (runCalls isSpace (SearchServer.empty stop_words) calls).documents_ document_id with
    | none =>
      simp only [hfind, Except.error.injEq] at he
      exact he.symm
    | some data => simp [hfind] at he
  · intro c hc
    have hstored := find_documents_runCalls_successful isSpace _ calls c hc
    rw [MatchDocument_eq, hq]
    simp only [hstored]
    exact ⟨_, rfl⟩

/-- C13 applied to the example of the specification and the query "fluffy cat
-groomed": document 7 was never ingested, documents 0 and 1 were. -/
theorem C13_MatchDocument_status_witness :
    ((∃ e, MatchDocument spaceOnly (runCalls spaceOnly (SearchServer.empty []) specExampleCalls)
        (ascii "fluffy cat -groomed") 7 = .error e) ↔
      (7 : Int) ∉ (successfulCalls spaceOnly (SearchServer.empty []) specExampleCalls).map
        (fun c => c.document_id)) ∧
    (∀ e, MatchDocument spaceOnly (runCalls spaceOnly (SearchServer.empty []) specExampleCalls)
        (ascii "fluffy cat -groomed") 7 = .error e → e = .out_of_range) ∧
    (∀ c ∈ successfulCalls spaceOnly (SearchServer.empty []) specExampleCalls,
      ∃ terms, MatchDocument spaceOnly
        (runCalls spaceOnly (SearchServer.empty []) specExampleCalls)
        (ascii "fluffy cat -groomed") c.document_id = .ok (terms, c.status)) :=
  C13_MatchDocument_status spaceOnly [] specExampleCalls (ascii "fluffy cat -groomed")
    { plus_words := [ascii "cat", ascii "fluffy"], minus_words := [ascii "groomed"] }
    (by decide) 7

theorem toSizeT_of_nonneg (k : Int) (h0 : 0 ≤ k) (h1 : k < 18446744073709551616) :
    toSizeT k = k.toNat := by
  unfold toSizeT
  congr 1
  omega

theorem toSizeT_of_neg (k : Int) (h0 : k < 0) (h1 : -2147483648 ≤ k) :
    18446744071562067968 ≤ toSizeT k := by
  unfold toSizeT
  omega

/-- The value of `GetDocumentCount` in a reachable state that holds fewer than
2^31 documents: the length of the insertion-order list. -/
theorem GetDocumentCount_eq_length (isSpace : Byte → Bool) (s : SearchServer)
    (hs : Reachable isSpace s) (hsize : s.documents_index_.length < 2147483648) :
    GetDocumentCount s = (s.documents_index_.length : Int) := by
  have hlen := (reachable_invariant isSpace s hs).index_length
  simp only [GetDocumentCount, StdMap.size, ← hlen]
  rw [toInt32_of_fits] <;> omega

/-- C14: after any sequence of `AddDocument` calls on a fresh server (with fewer
than 2^31 successful ones), for every `int` `k`: if `0 <= k < GetDocumentCount()`
then `GetDocumentId(k)` returns the id of the call that was the `k+1`-th to
complete normally, and otherwise, negative `k` included, it throws
`std::out_of_range`.  Calls that threw take no position, and the id at a position
is the same after any further calls. -/
theorem C14_GetDocumentId_positions (isSpace : Byte → Bool) (stop_words : List Str)
    (calls : List AddDocumentCall) (s : SearchServer)
    (hs : s = runCalls isSpace (SearchServer.empty stop_words) calls)
    (hcount : (successfulCalls isSpace (SearchServer.empty stop_words) calls).length <
      2147483648)
    (k : Int) (hk : -2147483648 ≤ k ∧ k < 2147483648) :
    GetDocumentCount s =
        ((successfulCalls isSpace (SearchServer.empty stop_words) calls).length : Int) ∧
      (0 ≤ k ∧ k < GetDocumentCount s →
        ∃ c, (successfulCalls isSpace (SearchServer.empty stop_words) calls)[k.toNat]? = some c ∧
          GetDocumentId s k = .ok c.document_id) ∧
      (¬ (0 ≤ k ∧ k < GetDocumentCount s) → GetDocumentId s k = .error .out_of_range) ∧
      (0 ≤ k ∧ k < GetDocumentCount s → ∀ more : List AddDocumentCall,
        GetDocumentId (runCalls isSpace s more) k = GetDocumentId s k) := by
  have hreach : Reachable isSpace s := by
    rw [hs]
    exact runCalls_reachable isSpace _ (Reachable.init stop_words) calls
  have hindex : s.documents_index_ =
      (successfulCalls isSpace (SearchServer.empty stop_words) calls).map
        (fun c => c.document_id) := by
    rw [hs, documents_index_runCalls]
    simp [SearchServer.empty]
  have hlen : s.documents_index_.length =
      (successfulCalls isSpace (SearchServer.empty stop_words) calls).length := by
    rw [hindex, List.length_map]
  have hcnt : GetDocumentCount s =
      ((successfulCalls isSpace (SearchServer.empty stop_words) calls).length : Int) := by
    rw [GetDocumentCount_eq_length isSpace s hreach (by omega), hlen]
  refine ⟨hcnt, ?_, ?_, ?_⟩
  · rintro ⟨h0, h1⟩
    rw [hcnt] at h1
    have hlt : k.toNat < (successfulCalls isSpace (SearchServer.empty stop_words) calls).length := by
      omega
    refine ⟨(successfulCalls isSpace (SearchServer.empty stop_words) calls)[k.toNat], ?_, ?_⟩
    · exact List.getElem?_eq_getElem hlt
    · simp only [GetDocumentId]
      rw [toSizeT_of_nonneg k h0 (by omega), hindex, List.getElem?_map,
        List.getElem?_eq_getElem hlt]
      rfl
  · intro hout
    rw [hcnt] at hout
    have hnone : s.documents_index_[toSizeT k]? = none := by
      apply List.getElem?_eq_none
      rw [hlen]
      by_cases h0 : 0 ≤ k
      · rw [toSizeT_of_nonneg k h0 (by omega)]
        omega
      · have := toSizeT_of_neg k (by omega) hk.1
        omega
    simp only [GetDocumentId, hnone]
  · rintro ⟨h0, h1⟩ more
    rw [hcnt] at h1
    have hlt : k.toNat < s.documents_index_.length := by
      omega
    simp only [GetDocumentId]
    rw [documents_index_runCalls, toSizeT_of_nonneg k h0 (by omega),
      List.getElem?_append_left hlt]

/-- C14 applied to the calls with the ids 0, -1, 0, 1 on a fresh server: the
second and the third call throw, so position 1 holds the id 1, and position -1
is out of range. -/
theorem C14_GetDocumentId_positions_witness :
    (∃ c, (successfulCalls spaceOnly (SearchServer.empty []) mixedExampleCalls)[(1 : Int).toNat]? =
          some c ∧
        GetDocumentId (runCalls spaceOnly (SearchServer.empty []) mixedExampleCalls) 1 =
          .ok c.document_id) ∧
      GetDocumentId (runCalls spaceOnly (SearchServer.empty []) mixedExampleCalls) (-1) =
        .error .out_of_range :=
  ⟨(C14_GetDocumentId_positions spaceOnly [] mixedExampleCalls
      (runCalls spaceOnly (SearchServer.empty []) mixedExampleCalls) rfl (by decide) 1
      (by decide)).2.1 (by decide),
    (C14_GetDocumentId_positions spaceOnly [] mixedExampleCalls
      (runCalls spaceOnly (SearchServer.empty []) mixedExampleCalls) rfl (by decide) (-1)
      (by decide)).2.2.1 (by decide)⟩

/-! ## Invariants of the reachable states -/

/-- Induction over the reachable states: it is enough to look at a fresh server
and at a call of `AddDocument` that passes the three checks. -/
theorem reachable_induction (isSpace : Byte → Bool) (P : SearchServer → Prop)
    (hinit : ∀ stop_words, P (SearchServer.empty stop_words))
    (hadd : ∀ (s : SearchServer) (document_id : Int) (document : Str)
      (status : DocumentStatus) (ratings : List Int), Reachable isSpace s → P s →
      ¬ document_id < 0 → StdMap.count s.documents_ document_id = 0 →
      IsValidWord document = true →
      P { s with
          word_to_document_freqs_ :=
            AddDocument.loop document_id
              (1 / ((SplitIntoWordsNoStop isSpace s document).length : Rat))
              (SplitIntoWordsNoStop isSpace s document) s.word_to_document_freqs_
          documents_ :=
            StdMap.emplace s.documents_ document_id
              { rating := ComputeAverageRating ratings, status := status }
          documents_index_ := s.documents_index_ ++ [document_id] })
    (s : SearchServer) (h : Reachable isSpace s) : P s := by
  induction h with
  | init stop_words => exact hinit stop_words
  | add s hs document_id document status ratings ih =>
    cases hres : (AddDocument isSpace s document_id document status ratings).1 with
    | error e =>
      rw [AddDocument_error_state isSpace s document_id document status ratings e hres]
      exact ih
    | ok u =>
      obtain ⟨h1, h2, h3⟩ :=
        AddDocument_ok_conditions isSpace s document_id document status ratings hres
      rw [AddDocument_of_valid isSpace s document_id document status ratings h1 h2 h3]
      exact hadd s document_id document status ratings hs ih h1 h2 h3

/-- Every term of the index after the ingestion loop was there before or is one of
the words of the document. -/
theorem loop_keys (P : Str → Prop) (document_id : Int) (inv_word_count : Rat)
    (words : List Str) (index : List (Str × List (Int × Rat)))
    (hindex : ∀ e ∈ index, P e.1) (hwords : ∀ w ∈ words, P w) :
    ∀ e ∈ AddDocument.loop document_id inv_word_count words index, P e.1 := by
  induction words generalizing index with
  | nil => simpa [AddDocument.loop] using hindex
  | cons word rest ih =>
    simp only [AddDocument.loop]
    apply ih
    · intro e he
      rcases StdMap.mem_modify _ _ _ _ _ he with he | ⟨he1, _⟩
      · exact hindex e he
      · rw [he1]
        exact hwords word (List.mem_cons_self _ _)
    · intro w hw
      exact hwords w (List.mem_cons_of_mem _ hw)

theorem reachable_index_no_stop_word (isSpace : Byte → Bool) (s : SearchServer)
    (h : Reachable isSpace s) : ∀ e ∈ s.word_to_document_freqs_, IsStopWord s e.1 = false := by
  refine reachable_induction isSpace
    (fun s => ∀ e ∈ s.word_to_document_freqs_, IsStopWord s e.1 = false) ?_ ?_ s h
  · intro stop_words e he
    simp [SearchServer.empty] at he
  · intro s document_id document status ratings _ ih _ _ _
    apply loop_keys (fun w => IsStopWord s w = false)
    · exact ih
    · intro w hw
      simp only [SplitIntoWordsNoStop, List.mem_filter, Bool.not_eq_true'] at hw
      exact hw.2

theorem IsStopWord_eq_true_iff (s : SearchServer) (word : Str) :
    IsStopWord s word = true ↔ word ∈ s.stop_words_ := by
  unfold IsStopWord StdSet.count
  by_cases h : word ∈ s.stop_words_ <;> simp [h]

/-- C15: in every state reachable from a fresh server by `AddDocument` calls, no
term of the inverted index is a stop word: `IsStopWord` is false of it, that is,
it is not in the stop-word set the server was constructed with. -/
theorem C15_index_no_stop_word (isSpace : Byte → Bool) (stop_words : List Str)
    (calls : List AddDocumentCall) (s : SearchServer)
    (hs : s = runCalls isSpace (SearchServer.empty stop_words) calls) :
    s.stop_words_ = stop_words ∧
      ∀ e ∈ s.word_to_document_freqs_, IsStopWord s e.1 = false ∧ e.1 ∉ stop_words := by
  have hreach : Reachable isSpace s := by
    rw [hs]
    exact runCalls_reachable isSpace _ (Reachable.init stop_words) calls
  have hstop : s.stop_words_ = stop_words := by
    rw [hs, stop_words_runCalls]
    rfl
  refine ⟨hstop, ?_⟩
  intro e he
  have hno := reachable_index_no_stop_word isSpace s hreach e he
  refine ⟨hno, ?_⟩
  intro hmem
  rw [← hstop, ← IsStopWord_eq_true_iff, hno] at hmem
  exact absurd hmem (by simp)

/-- C15 applied to the example server (stop words "and", "in"), into which the
document "white cat and fluffy tail" was ingested. -/
theorem C15_index_no_stop_word_witness :
    exampleServer.stop_words_ = [ascii "and", ascii "in"] ∧
      ∀ e ∈ exampleServer.word_to_document_freqs_,
        IsStopWord exampleServer e.1 = false ∧ e.1 ∉ [ascii "and", ascii "in"] :=
  C15_index_no_stop_word spaceOnly [ascii "and", ascii "in"]
    [{ document_id := 0, document := ascii "white cat and fluffy tail",
       status := DocumentStatus.ACTUAL, ratings := [7, 2, 7] }] exampleServer rfl

namespace StdMap

variable {K : Type} {V : Type} [LinearOrder K]

theorem keys_emplace_perm (m : List (K × V)) (k : K) (v : V) (h : find m k = none) :
    ((emplace m k v).map Prod.fst).Perm (k :: m.map Prod.fst) := by
  induction m with
  | nil => simp [emplace]
  | cons e m ih =>
    obtain ⟨k', v'⟩ := e
    simp only [find] at h
    by_cases h1 : k < k'
    · simp [emplace, h1]
    · by_cases h2 : k = k'
      · simp [h1, h2] at h
      · simp only [h1, h2, if_false] at h
        simp only [emplace, h1, h2, if_false, List.map_cons]
        exact ((ih h).cons k').trans (List.Perm.swap k k' _)

end StdMap

theorem reachable_ids_nonneg (isSpace : Byte → Bool) (s : SearchServer)
    (h : Reachable isSpace s) : ∀ p ∈ s.documents_, 0 ≤ p.1 := by
  refine reachable_induction isSpace (fun s => ∀ p ∈ s.documents_, 0 ≤ p.1) ?_ ?_ s h
  · intro stop_words p hp
    simp [SearchServer.empty] at hp
  · intro s document_id document status ratings _ ih h1 _ _ p hp
    rcases StdMap.mem_emplace _ _ _ _ hp with hp | hp
    · exact ih p hp
    · rw [hp]
      exact not_lt.mp h1

theorem reachable_index_perm (isSpace : Byte → Bool) (s : SearchServer)
    (h : Reachable isSpace s) : s.documents_index_.Perm (s.documents_.map Prod.fst) := by
  refine reachable_induction isSpace
    (fun s => s.documents_index_.Perm (s.documents_.map Prod.fst)) ?_ ?_ s h
  · intro stop_words
    simp [SearchServer.empty]
  · intro s document_id document status ratings _ ih _ h2 _
    have hnone := (StdMap.count_eq_zero_iff _ _).mp h2
    have hkeys := StdMap.keys_emplace_perm s.documents_ document_id
      { rating := ComputeAverageRating ratings, status := status } hnone
    exact (List.perm_append_singleton document_id s.documents_index_).trans
      ((ih.cons document_id).trans hkeys.symm)

/-- C18: in every state reachable from a fresh server by `AddDocument` calls,
every document id with a posting in the inverted index is a key of the document
store, so that `documents_.at` of it does not throw; every stored id is
non-negative; and the insertion-order list holds exactly the keys of the store,
each exactly once. -/
theorem C18_reachable_invariants (isSpace : Byte → Bool) (s : SearchServer)
    (hs : Reachable isSpace s) :
    (∀ e ∈ s.word_to_document_freqs_, ∀ p ∈ e.2,
      p.1 ∈ s.documents_.map Prod.fst ∧ ∃ data, StdMap.at_ s.documents_ p.1 = .ok data) ∧
    (∀ p ∈ s.documents_, 0 ≤ p.1) ∧
    s.documents_index_.Perm (s.documents_.map Prod.fst) ∧
    s.documents_index_.Nodup ∧
    (s.documents_.map Prod.fst).Nodup := by
  have hinv := reachable_invariant isSpace s hs
  have hperm := reachable_index_perm isSpace s hs
  have hnodup : (s.documents_.map Prod.fst).Nodup := hinv.documents_sorted.nodup
  refine ⟨?_, reachable_ids_nonneg isSpace s hs, hperm, hperm.nodup_iff.mpr hnodup, hnodup⟩
  intro e he p hp
  have hfind := hinv.postings_stored e he p hp
  refine ⟨(StdMap.mem_keys_iff_find _ _ hinv.documents_sorted).mpr hfind, ?_⟩
  unfold StdMap.at_
  cases hcase : StdMap.find s.documents_ p.1 with
  | none => exact absurd hcase hfind
  | some data => exact ⟨data, rfl⟩

/-- C18 applied to the server of the example of the specification. -/
theorem C18_reachable_invariants_witness :
    (∀ e ∈ specExampleServer.word_to_document_freqs_, ∀ p ∈ e.2,
      p.1 ∈ specExampleServer.documents_.map Prod.fst ∧
        ∃ data, StdMap.at_ specExampleServer.documents_ p.1 = .ok data) ∧
    (∀ p ∈ specExampleServer.documents_, 0 ≤ p.1) ∧
    specExampleServer.documents_index_.Perm (specExampleServer.documents_.map Prod.fst) ∧
    specExampleServer.documents_index_.Nodup ∧
    (specExampleServer.documents_.map Prod.fst).Nodup :=
  C18_reachable_invariants spaceOnly specExampleServer
    (runCalls_reachable spaceOnly _ (Reachable.init []) specExampleCalls)

/-! ## What a successful ingestion leaves alone -/

theorem storedFrequency_addFrequency_other (index : List (Str × List (Int × Rat)))
    (word : Str) (document_id : Int) (inv_word_count : Rat) (w : Str) (e : Int)
    (he : e ≠ document_id) :
    storedFrequency (addFrequency index word document_id inv_word_count) w e =
      storedFrequency index w e := by
  unfold storedFrequency addFrequency
  rw [StdMap.find_modify]
  by_cases h : w = word
  · subst h
    simp only [if_true, StdMap.find_modify, if_neg he]
    cases StdMap.find index w with
    | none => simp [StdMap.find]
    | some freqs => simp
  · simp [h]

theorem storedFrequency_loop_other (document_id : Int) (inv_word_count : Rat)
    (words : List Str) (index : List (Str × List (Int × Rat))) (w : Str) (e : Int)
    (he : e ≠ document_id) :
    storedFrequency (AddDocument.loop document_id inv_word_count words index) w e =
      storedFrequency index w e := by
  induction words generalizing index with
  | nil => rfl
  | cons word rest ih =>
    simp only [AddDocument.loop]
    rw [ih, storedFrequency_addFrequency_other _ _ _ _ _ _ he]

/-- The parser looks at the server only through its stop words. -/
theorem ParseQuery_loop_congr (s t : SearchServer) (h : t.stop_words_ = s.stop_words_)
    (words : List Str) (result : Query) :
    ParseQuery.loop t words result = ParseQuery.loop s words result := by
  have hword : ∀ text, ParseQueryWord t text = ParseQueryWord s text := by
    intro text
    simp only [ParseQueryWord, IsStopWord, h]
  induction words generalizing result with
  | nil => rfl
  | cons word rest ih =>
    simp only [ParseQuery.loop, hword, ih]

theorem ParseQuery_congr (isSpace : Byte → Bool) (s t : SearchServer)
    (h : t.stop_words_ = s.stop_words_) (text : Str) :
    ParseQuery isSpace t text = ParseQuery isSpace s text :=
  ParseQuery_loop_congr s t h _ _

/-- C19: a call `AddDocument(d, ...)` that completes normally changes nothing that
belongs to another document: for every term and every id other than `d` the
frequency stored in the inverted index is the same before and after (present or
absent alike), the stored rating and status of every other id are unchanged, and
`MatchDocument` returns the same for every query and every document ingested
before. -/
theorem C19_AddDocument_frame (isSpace : Byte → Bool) (s : SearchServer) (document_id : Int)
    (document : Str) (status : DocumentStatus) (ratings : List Int)
    (hok : (AddDocument isSpace s document_id document status ratings).1 = .ok ()) :
    (∀ (w : Str) (e : Int), e ≠ document_id →
      storedFrequency
          (AddDocument isSpace s document_id document status ratings).2.word_to_document_freqs_
          w e =
        storedFrequency s.word_to_document_freqs_ w e) ∧
    (∀ e : Int, e ≠ document_id →
      StdMap.find (AddDocument isSpace s document_id document status ratings).2.documents_ e =
        StdMap.find s.documents_ e) ∧
    (∀ (raw_query : Str) (e : Int), StdMap.find s.documents_ e ≠ none →
      MatchDocument isSpace (AddDocument isSpace s document_id document status ratings).2
          raw_query e =
        MatchDocument isSpace s raw_query e) := by
  have hfreq : ∀ (w : Str) (e : Int), e ≠ document_id →
      storedFrequency
          (AddDocument isSpace s document_id document status ratings).2.word_to_document_freqs_
          w e =
        storedFrequency s.word_to_document_freqs_ w e := by
    intro w e he
    obtain ⟨h1, h2, h3⟩ :=
      AddDocument_ok_conditions isSpace s document_id document status ratings hok
    rw [AddDocument_of_valid isSpace s document_id document status ratings h1 h2 h3]
    exact storedFrequency_loop_other _ _ _ _ w e he
  have hstore : ∀ e : Int, e ≠ document_id →
      StdMap.find (AddDocument isSpace s document_id document status ratings).2.documents_ e =
        StdMap.find s.documents_ e :=
    fun e he => find_documents_AddDocument_other isSpace s _ _ _ _ e (Or.inl he)
  refine ⟨hfreq, hstore, ?_⟩
  intro raw_query e hstored
  have hne : e ≠ document_id :=
    AddDocument_ok_ne_stored isSpace s document_id document status ratings e hstored hok
  have hidx : isIndexed
      (AddDocument isSpace s document_id document status ratings).2.word_to_document_freqs_ e =
      isIndexed s.word_to_document_freqs_ e := by
    funext w
    simp only [isIndexed, hfreq w e hne]
  rw [MatchDocument_eq, MatchDocument_eq,
    ParseQuery_congr isSpace s _ (stop_words_AddDocument isSpace s _ _ _ _), hidx,
    hstore e hne]

/-- C19 applied to the example of the specification: ingesting document 1 leaves
what `MatchDocument` returns for document 0 as it was. -/
theorem C19_AddDocument_frame_witness :
    MatchDocument spaceOnly
        (AddDocument spaceOnly
          (AddDocument spaceOnly (SearchServer.empty []) 0 (ascii "white cat fluffy tail")
            DocumentStatus.ACTUAL [7, 2, 7]).2
          1 (ascii "fluffy well groomed cat") DocumentStatus.ACTUAL [8, -3]).2
        (ascii "fluffy cat -groomed") 0 =
      MatchDocument spaceOnly
        (AddDocument spaceOnly (SearchServer.empty []) 0 (ascii "white cat fluffy tail")
          DocumentStatus.ACTUAL [7, 2, 7]).2
        (ascii "fluffy cat -groomed") 0 :=
  (C19_AddDocument_frame spaceOnly
    (AddDocument spaceOnly (SearchServer.empty []) 0 (ascii "white cat fluffy tail")
      DocumentStatus.ACTUAL [7, 2, 7]).2
    1 (ascii "fluffy well groomed cat") DocumentStatus.ACTUAL [8, -3] (by decide)).2.2
    (ascii "fluffy cat -groomed") 0 (by decide)

/-! ## Documents without an indexable word -/

/-- C20: on a reachable server holding fewer than `INT_MAX` documents, for every
non-negative unused id `d` and every text without control characters all of whose
tokens are stop words (the empty text among them), `AddDocument` completes
normally; the inverted index is left exactly as it was, the store records the
rating and the status under `d`, `GetDocumentCount` grows by one, and
`MatchDocument(query, d)` returns the empty term list with the status of `d` for
every query that parses. -/
theorem C20_AddDocument_no_indexable_word (isSpace : Byte → Bool) (s : SearchServer)
    (hs : Reachable isSpace s) (document_id : Int) (document : Str)
    (status : DocumentStatus) (ratings : List Int)
    (hsize : (StdMap.size s.documents_ : Int) < 2147483647)
    (hid : 0 ≤ document_id) (hunused : document_id ∉ s.documents_.map Prod.fst)
    (hctrl : ∀ c ∈ document, 32 ≤ c.val)
    (hwords : ∀ t ∈ SplitIntoWords isSpace document, IsStopWord s t = true) :
    (AddDocument isSpace s document_id document status ratings).1 = .ok () ∧
    (AddDocument isSpace s document_id document status ratings).2.word_to_document_freqs_ =
      s.word_to_document_freqs_ ∧
    StdMap.find (AddDocument isSpace s document_id document status ratings).2.documents_
        document_id =
      some { rating := ComputeAverageRating ratings, status := status } ∧
    GetDocumentCount (AddDocument isSpace s document_id document status ratings).2 =
      GetDocumentCount s + 1 ∧
    ∀ (raw_query : Str) (query : Query),
      ParseQuery isSpace (AddDocument isSpace s document_id document status ratings).2
        raw_query = .ok query →
      MatchDocument isSpace (AddDocument isSpace s document_id document status ratings).2
        raw_query document_id = .ok ([], status) := by
  have hinv := reachable_invariant isSpace s hs
  have hnone : StdMap.find s.documents_ document_id = none := by
    by_contra hsome
    exact hunused ((StdMap.mem_keys_iff_find _ _ hinv.documents_sorted).mpr hsome)
  have h1 : ¬ document_id < 0 := not_lt.mpr hid
  have h2 : StdMap.count s.documents_ document_id = 0 := (StdMap.count_eq_zero_iff _ _).mpr hnone
  have h3 : IsValidWord document = true := (IsValidWord_eq_true_iff document).mpr hctrl
  have hnowords : SplitIntoWordsNoStop isSpace s document = [] := by
    unfold SplitIntoWordsNoStop
    rw [List.filter_eq_nil_iff]
    intro t ht
    simp [hwords t ht]
  have hstate := AddDocument_of_valid isSpace s document_id document status ratings h1 h2 h3
  rw [hnowords] at hstate
  simp only [AddDocument.loop] at hstate
  have hlen := StdMap.length_emplace s.documents_ document_id
    { rating := ComputeAverageRating ratings, status := status } hnone
  unfold StdMap.size at hsize
  rw [hstate]
  refine ⟨rfl, rfl, ?_, ?_, ?_⟩
  · simp [StdMap.find_emplace, hnone]
  · simp only [GetDocumentCount, StdMap.size, hlen]
    rw [toInt32_of_fits _ (by omega) (by omega), toInt32_of_fits _ (by omega) (by omega)]
    push_cast
    rfl
  · intro raw_query query hq
    have hidx : ∀ w, isIndexed s.word_to_document_freqs_ document_id w = false := by
      intro w
      simp [isIndexed, storedFrequency_fresh s hinv document_id hnone w]
    rw [MatchDocument_eq, hq]
    have hfilter : query.plus_words.filter (isIndexed s.word_to_document_freqs_ document_id) =
        [] := by
      rw [List.filter_eq_nil_iff]
      intro w _
      simp [hidx w]
    simp [StdMap.find_emplace, hnone, hfilter]

/-- C20 applied to the example server (stop words "and", "in"), the new id 2 and
the text "and in". -/
theorem C20_AddDocument_no_indexable_word_witness :
    (AddDocument spaceOnly exampleServer 2 (ascii "and in") DocumentStatus.BANNED [3]).1 =
      .ok () ∧
    (AddDocument spaceOnly exampleServer 2 (ascii "and in")
        DocumentStatus.BANNED [3]).2.word_to_document_freqs_ =
      exampleServer.word_to_document_freqs_ ∧
    StdMap.find
        (AddDocument spaceOnly exampleServer 2 (ascii "and in")
          DocumentStatus.BANNED [3]).2.documents_ 2 =
      some { rating := ComputeAverageRating [3], status := DocumentStatus.BANNED } ∧
    GetDocumentCount
        (AddDocument spaceOnly exampleServer 2 (ascii "and in") DocumentStatus.BANNED [3]).2 =
      GetDocumentCount exampleServer + 1 ∧
    ∀ (raw_query : Str) (query : Query),
      ParseQuery spaceOnly
        (AddDocument spaceOnly exampleServer 2 (ascii "and in") DocumentStatus.BANNED [3]).2
        raw_query = .ok query →
      MatchDocument spaceOnly
        (AddDocument spaceOnly exampleServer 2 (ascii "and in") DocumentStatus.BANNED [3]).2
        raw_query 2 = .ok ([], DocumentStatus.BANNED) :=
  C20_AddDocument_no_indexable_word spaceOnly exampleServer exampleServer_reachable 2
    (ascii "and in") DocumentStatus.BANNED [3] (by decide) (by decide) (by decide)
    ((IsValidWord_eq_true_iff (ascii "and in")).mp (by decide)) (by decide)

/-! ## The ranker -/

/-- C16: `FindTopDocuments(raw_query)` returns what `FindTopDocuments(raw_query,
DocumentStatus::ACTUAL)` returns, result or failure, and for every status `s`
`FindTopDocuments(raw_query, s)` returns what the predicate form returns for a
predicate that accepts `(id, status, rating)` exactly when `status == s`, whatever
the id and the rating; this holds for every implementation of the predicate
form. -/
theorem C16_FindTopDocuments_overloads
    (findTopDocuments : SearchServer → Str → (Int → DocumentStatus → Int → Bool) →
      Except Exception (List Document))
    (s : SearchServer) (raw_query : Str) :
    FindTopDocuments_query findTopDocuments s raw_query =
        FindTopDocuments_status findTopDocuments s raw_query DocumentStatus.ACTUAL ∧
      ∀ status : DocumentStatus,
        ∃ predicate : Int → DocumentStatus → Int → Bool,
          FindTopDocuments_status findTopDocuments s raw_query status =
            findTopDocuments s raw_query predicate ∧
          ∀ (document_id : Int) (new_status : DocumentStatus) (rating : Int),
            predicate document_id new_status rating = true ↔ new_status = status := by
  refine ⟨rfl, fun status => ⟨fun _ new_status _ => decide (new_status = status), rfl, ?_⟩⟩
  intro document_id new_status rating
  simp

theorem eligibleDocument_id (s : SearchServer) (predicate : Int → DocumentStatus → Int → Bool)
    (entry : Int × Rat) (doc : Document) (h : eligibleDocument s predicate entry = some doc) :
    doc.id = entry.1 := by
  unfold eligibleDocument at h
  cases hfind : StdMap.find s.documents_ entry.1 with
  | none => simp [hfind] at h
  | some data =>
    simp only [hfind] at h
    split at h
    · simp only [Option.some.injEq] at h
      rw [← h]
    · simp at h

/-- No result of the predicate form of `FindTopDocuments` is a document with an
index entry for a minus-word of the query. -/
theorem FindTopDocuments_minus_words (p : RankingParameters) (isSpace : Byte → Bool)
    (s : SearchServer) (raw_query : Str) (predicate : Int → DocumentStatus → Int → Bool)
    (query : Query) (results : List Document)
    (hq : ParseQuery isSpace s raw_query = .ok query)
    (hres : FindTopDocuments p isSpace s raw_query predicate = .ok results) :
    ∀ doc ∈ results, ∀ m ∈ query.minus_words,
      storedFrequency s.word_to_document_freqs_ m doc.id = none := by
  intro doc hdoc m hm
  simp only [FindTopDocuments, hq, Except.ok.injEq] at hres
  rw [← hres] at hdoc
  have hsorted := List.mem_of_mem_take hdoc
  rw [(List.perm_insertionSort _ _).mem_iff, List.mem_filterMap] at hsorted
  obtain ⟨entry, hentry, helig⟩ := hsorted
  rw [eligibleDocument_id s predicate entry doc helig]
  simp only [discardMinusWords, List.mem_filter, Bool.not_eq_true', List.any_eq_false] at hentry
  have hnot := hentry.2 m hm
  cases hstored : storedFrequency s.word_to_document_freqs_ m entry.1 with
  | none => rfl
  | some x => simp [isIndexed, hstored] at hnot

/-- The example of the specification: with any ranking parameters that keep at
least one result, the query "fluffy cat -groomed" returns exactly one document,
the one with id 0 (and rating 5). -/
theorem specExample_FindTopDocuments (p : RankingParameters)
    (hp : 0 < p.max_result_document_count) :
    ∃ doc : Document,
      FindTopDocuments_query (FindTopDocuments p spaceOnly) specExampleServer
        (ascii "fluffy cat -groomed") = .ok [doc] ∧ doc.id = 0 ∧ doc.rating = 5 := by
  have hq : ParseQuery spaceOnly specExampleServer (ascii "fluffy cat -groomed") =
      .ok { plus_words := [ascii "cat", ascii "fluffy"], minus_words := [ascii "groomed"] } := by
    decide
  have hsorted : ∃ doc : Document,
      ((discardMinusWords specExampleServer [ascii "groomed"]
        (accumulateScores p specExampleServer [ascii "cat", ascii "fluffy"] [])).filterMap
          (eligibleDocument specExampleServer
            (fun _document_id new_status _rating =>
              decide (new_status = DocumentStatus.ACTUAL)))).insertionSort
            (fun a b => ranksBefore p a b = true) = [doc] ∧ doc.id = 0 ∧ doc.rating = 5 :=
    ⟨_, rfl, rfl, rfl⟩
  obtain ⟨doc, hdoc, hid, hrating⟩ := hsorted
  refine ⟨doc, ?_, hid, hrating⟩
  simp only [FindTopDocuments_query, FindTopDocuments_status, FindTopDocuments, hq, hdoc]
  rw [List.take_of_length_le (by simpa using hp)]

/-- C17: whenever the query parses, no document with an index entry for a
minus-word of the query is among the results of `FindTopDocuments`, whatever
plus-words it matched and whatever the predicate (so also for the two overloads
that fix it).  In the example of the specification, documents 0 "white cat fluffy
tail" and 1 "fluffy well groomed cat", `FindTopDocuments("fluffy cat -groomed")`
returns exactly one result, with id 0, for any ranking parameters that keep at
least one result. -/
theorem C17_FindTopDocuments_minus_words :
    (∀ (p : RankingParameters) (isSpace : Byte → Bool) (s : SearchServer) (raw_query : Str)
      (predicate : Int → DocumentStatus → Int → Bool) (query : Query)
      (results : List Document),
      ParseQuery isSpace s raw_query = .ok query →
      FindTopDocuments p isSpace s raw_query predicate = .ok results →
      ∀ doc ∈ results, ∀ m ∈ query.minus_words,
        storedFrequency s.word_to_document_freqs_ m doc.id = none) ∧
    (∀ p : RankingParameters, 0 < p.max_result_document_count →
      ∃ doc : Document,
        FindTopDocuments_query (FindTopDocuments p spaceOnly) specExampleServer
          (ascii "fluffy cat -groomed") = .ok [doc] ∧ doc.id = 0) := by
  refine ⟨FindTopDocuments_minus_words, fun p hp => ?_⟩
  obtain ⟨doc, hdoc, hid, _⟩ := specExample_FindTopDocuments p hp
  exact ⟨doc, hdoc, hid⟩

/-- C17 applied to the example of the specification with the example ranking
parameters: the one result has id 0, and document 0 has no entry for "groomed". -/
theorem C17_FindTopDocuments_minus_words_witness :
    ∃ doc : Document,
      FindTopDocuments exampleRanking spaceOnly specExampleServer (ascii "fluffy cat -groomed")
          (fun _document_id new_status _rating => decide (new_status = DocumentStatus.ACTUAL)) =
        .ok [doc] ∧
      doc.id = 0 ∧
      storedFrequency specExampleServer.word_to_document_freqs_ (ascii "groomed") doc.id =
        none := by
  obtain ⟨doc, hdoc, hid⟩ := C17_FindTopDocuments_minus_words.2 exampleRanking (by decide)
  exact ⟨doc, hdoc, hid,
    C17_FindTopDocuments_minus_words.1 exampleRanking spaceOnly specExampleServer
      (ascii "fluffy cat -groomed") _
      { plus_words := [ascii "cat", ascii "fluffy"], minus_words := [ascii "groomed"] } [doc]
      (by decide) hdoc doc (List.mem_singleton_self doc) (ascii "groomed")
      (List.mem_singleton_self _)⟩

end SearchServerModel
